import Mathlib

/-!
factset-reader: versioned-archive resolution and selective extraction.

A shallow embedding of `reader.go` and `writer.go`.

* Go `string`s are Lean `String`s; the library calls the source makes on them
  (`strings.Contains`, `strings.TrimSuffix`, `strconv.Itoa`, `path.Join`, ...) are
  given by executable definitions on the underlying character lists.  All the
  separators and markers the program looks for are ASCII, so working on code
  points instead of UTF-8 bytes does not change any result on valid text.
* Go's `(value, error)` results are pairs whose second component is an
  `Option Error`; `none` is the `nil` error.
* Go `int` is the 64-bit signed integer; values are kept in `Int` and the
  one place where the range matters (`strconv.Atoi`) clamps explicitly.
* The SFTP client, the zip reader and the local file system are collaborators:
  their operations are fields of a record and thread an explicit world state.
-/

set_option autoImplicit false

namespace FactsetReader

/-- A Go `error`, identified by its message. -/
abbrev Error := String

/-! ## Library functions used by the source -/

/-- Character-list form of `strings.Contains`: `sub` occurs in `s` as a contiguous block. -/
def containsChars (sub : List Char) : List Char → Bool
  | [] => sub.isPrefixOf []
  | c :: t => sub.isPrefixOf (c :: t) || containsChars sub t

/-- Go `strings.Contains(s, substr)`. -/
def strings.Contains (s substr : String) : Bool :=
  containsChars substr.toList s.toList

/-- Character-list form of `strings.TrimSuffix`. -/
def trimSuffixChars (s suffix : List Char) : List Char :=
  if suffix.isSuffixOf s then s.take (s.length - suffix.length) else s

/-- Go `strings.TrimSuffix(s, suffix)`: `s` without the trailing `suffix`, or `s` itself. -/
def strings.TrimSuffix (s suffix : String) : String :=
  String.mk (trimSuffixChars s.toList suffix.toList)

/-- Character-list form of `strings.TrimPrefix`. -/
def trimPrefixChars (s pre : List Char) : List Char :=
  if pre.isPrefixOf s then s.drop pre.length else s

/-- Go `strings.TrimPrefix(s, prefix)`: `s` without the leading `prefix`, or `s` itself. -/
def strings.TrimPrefix (s pre : String) : String :=
  String.mk (trimPrefixChars s.toList pre.toList)

/-- The largest value of a Go `int` (64-bit). -/
def maxInt : Nat := 2 ^ 63 - 1

/-- Value of an ASCII digit. -/
def digitVal (c : Char) : Nat := c.toNat - 48

/-- Decimal value of a run of digits, most significant first. -/
def decimalValue (ds : List Char) : Nat :=
  ds.foldl (fun acc c => 10 * acc + digitVal c) 0

/-- Go `strconv.Atoi(s)`: an optional sign followed by decimal digits.  A text that is
not of that form gives `0` and a syntax error; a value outside the `int` range gives the
nearest bound and a range error. -/
def strconv.Atoi (s : String) : Int × Option Error :=
  let syntaxErr : Error := "strconv.Atoi: parsing " ++ s.quote ++ ": invalid syntax"
  let rangeErr : Error := "strconv.Atoi: parsing " ++ s.quote ++ ": value out of range"
  let body (neg : Bool) (ds : List Char) : Int × Option Error :=
    if ds = [] ∨ ¬ ds.all Char.isDigit = true then (0, some syntaxErr)
    else
      let v := decimalValue ds
      if neg then
        if v ≤ maxInt + 1 then (-(v : Int), none) else (-((maxInt : Int) + 1), some rangeErr)
      else
        if v ≤ maxInt then ((v : Int), none) else ((maxInt : Int), some rangeErr)
  match s.toList with
  | [] => body false []
  | c :: ds =>
    if c = '-' then body true ds
    else if c = '+' then body false ds
    else body false (c :: ds)

/-- Go `strconv.Itoa(i)`: the decimal text of `i`. -/
def strconv.Itoa (i : Int) : String :=
  if i < 0 then "-" ++ Nat.repr i.natAbs else Nat.repr i.natAbs

/-! ## Version patterns -/

/-- Go `regexp.MustCompile("^*v[0-9]+").FindStringSubmatch` on a character list.  The
starred `^` matches the empty text at any position, so the pattern finds the leftmost
`v` that is followed by a digit and takes the whole digit run after it.  The pattern
has no capture group: the returned slice holds the match and nothing else. -/
def findMajorSubmatch : List Char → Option (List (List Char))
  | [] => none
  | c :: rest =>
    if c = 'v' ∧ rest.takeWhile Char.isDigit ≠ [] then
      some ['v' :: rest.takeWhile Char.isDigit]
    else findMajorSubmatch rest

/-- Go `regexp.MustCompile("_[0-9]+$").FindStringSubmatch` on a character list: the
leftmost `_` whose remainder, up to the end of the text, is a non-empty digit run.
The pattern has no capture group: the returned slice holds the match only. -/
def findMinorSubmatch : List Char → Option (List (List Char))
  | [] => none
  | c :: rest =>
    if c = '_' ∧ rest ≠ [] ∧ rest.all Char.isDigit = true then some [c :: rest]
    else findMinorSubmatch rest

/-- Error of `getMajorVersion` when the pattern does not match. -/
def errMajorMissing : Error := "The major version is missing or not correctly specified!"

/-- Error of `getMajorVersion` when the match slice has more than one element. -/
def errMajorAmbiguous : Error := "More than 1 major version found!"

/-- Error of `getMinorVersion` when the pattern does not match. -/
def errMinorMissing : Error := "The minor version is missing or not correctly specified!"

/-- Error of `getMinorVersion` when the match slice has more than one element. -/
def errMinorAmbiguous : Error := "More than 1 minor version found!"

/-- Source function `FactsetReader.getMajorVersion` (reader.go 180-192). -/
def getMajorVersion (fullVersion : String) : Int × Option Error :=
  let justFileName := strings.TrimSuffix fullVersion ".zip"
  match findMajorSubmatch justFileName.toList with
  | none => (-1, some errMajorMissing)
  | some foundMatches =>
    if foundMatches.length > 1 then (-1, some errMajorAmbiguous)
    else
      let majorVersion :=
        (strconv.Atoi (strings.TrimPrefix (String.mk (foundMatches.headD [])) "v")).1
      (majorVersion, none)

/-- Source function `FactsetReader.getMinorVersion` (reader.go 194-206). -/
def getMinorVersion (fullVersion : String) : Int × Option Error :=
  let justFileName := strings.TrimSuffix fullVersion ".zip"
  match findMinorSubmatch justFileName.toList with
  | none => (-1, some errMinorMissing)
  | some foundMatches =>
    if foundMatches.length > 1 then (-1, some errMinorAmbiguous)
    else
      let minorVersion :=
        (strconv.Atoi (strings.TrimPrefix (String.mk (foundMatches.headD [])) "_")).1
      (minorVersion, none)

/-! ## Resolution of the most recent archives -/

/-- The part of `os.FileInfo` the program consumes: the entry's name. -/
structure FileInfo where
  Name : String
  deriving DecidableEq, Repr

/-- The anonymous struct `foundFile` of `GetMostRecentZips`. -/
structure FoundFile where
  name : String
  majorVersion : Int
  minorVersion : Int
  deriving DecidableEq, Repr

/-- First loop of `GetMostRecentZips` (reader.go 101-116), from the current `foundFile`:
the final `foundFile`, or the error of the first name that does not parse. -/
def scanVersions : List FileInfo → FoundFile → FoundFile × Option Error
  | [], foundFile => (foundFile, none)
  | file :: rest, foundFile =>
    let name := file.Name
    match getMajorVersion name with
    | (_, some err) => (foundFile, some err)
    | (majorVersion, none) =>
      match getMinorVersion name with
      | (_, some err) => (foundFile, some err)
      | (minorVersion, none) =>
        if (majorVersion > foundFile.majorVersion) ∨
            (majorVersion = foundFile.majorVersion ∧ minorVersion > foundFile.minorVersion) then
          scanVersions rest ⟨file.Name, majorVersion, minorVersion⟩
        else scanVersions rest foundFile

/-- Second loop of `GetMostRecentZips` (reader.go 122-131), appending to
`mostRecentZipFiles`. -/
def collectMatches (searchedFileName : String) (foundFile : FoundFile) :
    List FileInfo → List String → List String
  | [], mostRecentZipFiles => mostRecentZipFiles
  | file :: rest, mostRecentZipFiles =>
    let name := file.Name
    if !strings.Contains name searchedFileName then
      collectMatches searchedFileName foundFile rest mostRecentZipFiles
    else if strings.Contains name (strconv.Itoa foundFile.minorVersion) &&
        strings.Contains name (strconv.Itoa foundFile.majorVersion) then
      collectMatches searchedFileName foundFile rest (mostRecentZipFiles ++ [name])
    else collectMatches searchedFileName foundFile rest mostRecentZipFiles

/-- Error of `GetMostRecentZips` when the second loop collects nothing. -/
def errNoMatch (searchedFileName majorVersion minorVersion : String) : Error :=
  "Found no matching files with name: " ++ searchedFileName ++ ", major version: " ++
    majorVersion ++ ", or minor version: " ++ minorVersion

/-- Source function `FactsetReader.GetMostRecentZips` (reader.go 94-136). -/
def GetMostRecentZips (files : List FileInfo) (searchedFileName : String) :
    List String × Option Error :=
  match scanVersions files ⟨"", 0, 0⟩ with
  | (_, some err) => ([], some err)
  | (foundFile, none) =>
    let minorVersion := strconv.Itoa foundFile.minorVersion
    let majorVersion := strconv.Itoa foundFile.majorVersion
    let mostRecentZipFiles := collectMatches searchedFileName foundFile files []
    if mostRecentZipFiles.length > 0 then (mostRecentZipFiles, none)
    else (mostRecentZipFiles, some (errNoMatch searchedFileName majorVersion minorVersion))

/-! ## Paths and splitting -/

/-- Path elements of a text: the pieces between `/` characters (one more than the
number of slashes). -/
def splitSlash : List Char → List (List Char)
  | [] => [[]]
  | c :: rest =>
    if c = '/' then [] :: splitSlash rest
    else
      match splitSlash rest with
      | [] => [[c]]
      | e :: es => (c :: e) :: es

/-- One step of `path.Clean` on the stack of kept elements (innermost first): empty
and `.` elements are dropped, `..` removes the preceding kept element when there is one
that is not itself `..`, is kept at the front of a relative path, and is dropped at the
root; any other element is kept. -/
def cleanStep (rooted : Bool) (stack : List (List Char)) (e : List Char) : List (List Char) :=
  if e = [] ∨ e = ['.'] then stack
  else if e = ['.', '.'] then
    match stack with
    | [] => if rooted then [] else [e]
    | top :: below => if top = ['.', '.'] then e :: stack else below
  else e :: stack

/-- The elements joined with `/` between them. -/
def joinSlash : List (List Char) → List Char
  | [] => []
  | [e] => e
  | e :: es => e ++ '/' :: joinSlash es

/-- Character-list form of `path.Clean`. -/
def cleanChars (p : List Char) : List Char :=
  if p = [] then ['.']
  else
    let rooted : Bool := p.head? = some '/'
    let kept := ((splitSlash p).foldl (cleanStep rooted) []).reverse
    if rooted then '/' :: joinSlash kept
    else if kept = [] then ['.'] else joinSlash kept

/-- Go `path.Clean(p)`: the shortest path name equivalent to `p` by lexical processing. -/
def path.Clean (p : String) : String := String.mk (cleanChars p.toList)

/-- Go `path.Join(elem...)`: leading empty elements are ignored, the remaining ones are
joined with `/` and the result is cleaned; with nothing but empty elements it is `""`. -/
def path.Join (elem : List String) : String :=
  match elem.dropWhile (fun e => e = "") with
  | [] => ""
  | es => path.Clean (String.mk (joinSlash (es.map String.toList)))

/-- Go `path.Split(p)`: the text up to and including the last `/`, and the text after it. -/
def path.Split (p : String) : String × String :=
  let file := (p.toList.reverse.takeWhile (fun c => c ≠ '/')).reverse
  (String.mk (p.toList.take (p.toList.length - file.length)), String.mk file)

/-- Scanning loop of `strings.Split` for a non-empty separator: `skip` characters of a
separator just found are still to be passed over, `cur` is the piece being read
(reversed). -/
def splitLoop (sep : List Char) : Nat → List Char → List Char → List (List Char)
  | _, cur, [] => [cur.reverse]
  | skip + 1, cur, _ :: rest => splitLoop sep skip cur rest
  | 0, cur, c :: rest =>
    if sep.isPrefixOf (c :: rest) then cur.reverse :: splitLoop sep (sep.length - 1) [] rest
    else splitLoop sep 0 (c :: cur) rest

/-- Go `strings.Split(s, sep)`: the pieces of `s` between occurrences of `sep`; with an
empty `sep`, the characters of `s` one by one. -/
def strings.Split (s sep : String) : List String :=
  if sep.toList = [] then s.toList.map (fun c => String.mk [c])
  else (splitLoop sep.toList 0 [] s.toList).map String.mk

/-! ## Extraction -/

/-- Modelled from the spec: the constant `weekly`, declared outside `reader.go` and
`writer.go`; the specification names the cadence sub-directories "weekly" and "daily". -/
def weekly : String := "weekly"

/-- Modelled from the spec: the constant `daily`, declared outside `reader.go` and
`writer.go`; the specification names the cadence sub-directories "weekly" and "daily". -/
def daily : String := "daily"

/-- The zip reader and the local file system, as operations on a world state `σ`.
Each fallible operation returns its Go error (`none` is `nil`) and the next state. -/
structure LocalSystem (σ : Type) where
  /-- Go `zip.OpenReader(name)`: the names of the members (`r.File`), in archive order. -/
  zipOpenReader : String → σ → (List String × Option Error) × σ
  /-- Go `f.Open()` for the member of the given name. -/
  zipFileOpen : String → σ → Option Error × σ
  /-- Go `os.Create(name)`; the created file's `Name()` is `name`. -/
  osCreate : String → σ → Option Error × σ
  /-- Go `io.Copy(file, rc)` into the created path from the member of the given name. -/
  ioCopy : String → String → σ → Option Error × σ
  /-- Go `file.Close()` on the created path. -/
  fileClose : String → σ → σ
  /-- Go `rc.Close()` on the member of the given name. -/
  rcClose : String → σ → σ
  /-- The deferred `r.Close()`. -/
  zipClose : σ → σ

/-- The directory `unzip` extracts into (reader.go 158-162). -/
def cadenceDir (archive dest : String) : String :=
  if strings.Contains archive "full" then dest ++ "/" ++ weekly else dest ++ "/" ++ daily

/-- The path `unzip` passes to `os.Create` for a member (reader.go 164). -/
def extractPath (archive dest fName : String) : String :=
  path.Join [cadenceDir archive dest, fName]

/-- Inner loop of `unzip` (reader.go 147-175) for the member named `fName`. -/
def unzipFactsetFiles {σ : Type} (sys : LocalSystem σ) (archive dest fName : String) :
    List String → List String → σ → (List String × Option Error) × σ
  | [], filesToWrite, s => ((filesToWrite, none), s)
  | factsetFile :: rest, filesToWrite, s =>
    let justFileName := strings.TrimSuffix factsetFile ".txt"
    if !strings.Contains fName justFileName then
      unzipFactsetFiles sys archive dest fName rest filesToWrite s
    else
      match sys.zipFileOpen fName s with
      | (some err, s1) => (([], some err), s1)
      | (none, s1) =>
        let dir := cadenceDir archive dest
        let file := extractPath archive dest fName
        match sys.osCreate file s1 with
        | (some err, s2) => (([], some err), s2)
        | (none, s2) =>
          match sys.ioCopy file fName s2 with
          | (some err, s3) => (([], some err), s3)
          | (none, s3) =>
            unzipFactsetFiles sys archive dest fName rest
              (filesToWrite ++ [strings.TrimPrefix file (dir ++ "/")])
              (sys.rcClose fName (sys.fileClose file s3))

/-- Outer loop of `unzip` (reader.go 146-176) over the members `r.File`. -/
def unzipMembers {σ : Type} (sys : LocalSystem σ) (archive dest : String)
    (factsetFiles : List String) :
    List String → List String → σ → (List String × Option Error) × σ
  | [], filesToWrite, s => ((filesToWrite, none), s)
  | fName :: rest, filesToWrite, s =>
    match unzipFactsetFiles sys archive dest fName factsetFiles filesToWrite s with
    | ((_, some err), s1) => (([], some err), s1)
    | ((filesToWrite1, none), s1) =>
      unzipMembers sys archive dest factsetFiles rest filesToWrite1 s1

/-- Source function `FactsetReader.unzip` (reader.go 138-178). -/
def unzip {σ : Type} (sys : LocalSystem σ) (archive : String) (factsetFiles : List String)
    (dest : String) (s : σ) : (List String × Option Error) × σ :=
  match sys.zipOpenReader (path.Join [dest, archive]) s with
  | ((_, some err), s1) => (([], some err), s1)
  | ((members, none), s1) =>
    match unzipMembers sys archive dest factsetFiles members [] s1 with
    | (result, s2) => (result, sys.zipClose s2)

/-! ## The pipeline -/

/-- The interface `FactsetClient` (declared outside `reader.go`), as operations on the
world state. -/
structure FactsetClient (σ : Type) where
  /-- Go `ReadDir(dir)`: the entries of the remote directory. -/
  ReadDir : String → σ → (List FileInfo × Option Error) × σ
  /-- Go `Download(path, dest)`. -/
  Download : String → String → σ → Option Error × σ

/-- The fields of `factsetResource` the reader consumes. -/
structure factsetResource where
  archive : String
  fileNames : String
  deriving DecidableEq, Repr

/-- The struct `zipCollection`. -/
structure zipCollection where
  archive : String
  filesToWrite : List String
  deriving DecidableEq, Repr

/-- Source function `FactsetReader.download` (reader.go 80-92); logging and timing have no effect on the
result. -/
def download {σ : Type} (client : FactsetClient σ) (filePath fileName dest : String) (s : σ) :
    Option Error × σ :=
  let fullName := path.Join [filePath, fileName]
  client.Download fullName dest s

/-- The weekly filter of `Read` (reader.go 49-53), appending to `onlyWeeklyFiles`. -/
def onlyWeekly : List FileInfo → List FileInfo → List FileInfo
  | [], onlyWeeklyFiles => onlyWeeklyFiles
  | file :: rest, onlyWeeklyFiles =>
    if strings.Contains file.Name "full" then onlyWeekly rest (onlyWeeklyFiles ++ [file])
    else onlyWeekly rest onlyWeeklyFiles

/-- Body of the archive loop of `Read` (reader.go 63-72): download, then extraction. -/
def processArchive {σ : Type} (client : FactsetClient σ) (sys : LocalSystem σ)
    (fRes : factsetResource) (dir dest archive : String) (s : σ) :
    (List String × Option Error) × σ :=
  match download client dir archive dest s with
  | (some err, s1) => (([], some err), s1)
  | (none, s1) =>
    let factsetFiles := strings.Split fRes.fileNames ";"
    unzip sys archive factsetFiles dest s1

/-- The archive loop of `Read` (reader.go 62-75), appending to `fileCollection`. -/
def processArchives {σ : Type} (client : FactsetClient σ) (sys : LocalSystem σ)
    (fRes : factsetResource) (dir dest : String) :
    List String → List zipCollection → σ → (List zipCollection × Option Error) × σ
  | [], fileCollection, s => ((fileCollection, none), s)
  | archive :: rest, fileCollection, s =>
    match processArchive client sys fRes dir dest archive s with
    | ((_, some err), s1) => ((fileCollection, some err), s1)
    | ((filesToWrite, none), s1) =>
      processArchives client sys fRes dir dest rest
        (fileCollection ++ [⟨archive, filesToWrite⟩]) s1

/-- The part of `Read` from the (possibly filtered) listing on (reader.go 57-77): resolution, then the
archive loop. -/
def readListing {σ : Type} (client : FactsetClient σ) (sys : LocalSystem σ)
    (fRes : factsetResource) (dest : String) (files : List FileInfo) (s : σ) :
    (List zipCollection × Option Error) × σ :=
  match GetMostRecentZips files (path.Split fRes.archive).2 with
  | (_, some err) => (([], some err), s)
  | (mostRecentZipFiles, none) =>
    processArchives client sys fRes (path.Split fRes.archive).1 dest mostRecentZipFiles [] s

/-- Source function `FactsetReader.Read` (reader.go 38-78). -/
def Read {σ : Type} (client : FactsetClient σ) (sys : LocalSystem σ)
    (fRes : factsetResource) (dest : String) (isWeekly : Bool) (s : σ) :
    (List zipCollection × Option Error) × σ :=
  match client.ReadDir (path.Split fRes.archive).1 s with
  | ((_, some err), s1) => (([], some err), s1)
  | ((files, none), s1) =>
    if isWeekly = true then readListing client sys fRes dest (onlyWeekly files []) s1
    else readListing client sys fRes dest files s1

/-! ## The writer -/

/-- Source function `S3Writer.getS3ResFilePath` (writer.go 36-49); `today` is
`time.Now().Format("2006-01-02")`. -/
def getS3ResFilePath (today : String) (s3FileName archive : String) : String :=
  if archive = "" then archive
  else if strings.Contains archive "full" then "Weekly/" ++ today ++ "/" ++ s3FileName
  else "Daily/" ++ today ++ "/" ++ s3FileName

/-! ## Specification-level notions -/

/-- The name, with a trailing `.zip` removed, has a `v` immediately followed by a digit. -/
def HasMajorMarker (name : String) : Prop :=
  ∃ a d b, (strings.TrimSuffix name ".zip").toList = a ++ 'v' :: d :: b ∧ d.isDigit = true

/-- The name, with a trailing `.zip` removed, ends with `_` followed by one or more
digits and nothing else. -/
def HasMinorMarker (name : String) : Prop :=
  ∃ a ds, (strings.TrimSuffix name ".zip").toList = a ++ '_' :: ds ∧ ds ≠ [] ∧
    ∀ c ∈ ds, c.isDigit = true

/-- The name parses to a major and a minor version. -/
def WellFormed (name : String) : Prop :=
  (getMajorVersion name).2 = none ∧ (getMinorVersion name).2 = none

instance (name : String) : Decidable (WellFormed name) := by
  unfold WellFormed; exact inferInstance

/-- The `(major, minor)` pair the parser reads from a name. -/
def parsedPair (name : String) : Int × Int :=
  ((getMajorVersion name).1, (getMinorVersion name).1)

/-- Lexicographic major-then-minor order on version pairs. -/
def pairLe (p q : Int × Int) : Prop :=
  p.1 < q.1 ∨ (p.1 = q.1 ∧ p.2 ≤ q.2)

instance (p q : Int × Int) : Decidable (pairLe p q) := by
  unfold pairLe; exact inferInstance

/-- The second-pass test of `GetMostRecentZips` on one name. -/
def matchesResolved (searchedFileName : String) (major minor : Int) (name : String) : Bool :=
  strings.Contains name searchedFileName &&
    (strings.Contains name (strconv.Itoa minor) && strings.Contains name (strconv.Itoa major))

/-- The run of the archive loop of `Read` over archives that all download and extract
without error: from state `s` it ends in state `s'` with one `zipCollection` per archive,
holding the archive's name and the list its extraction returned. -/
inductive Processed {σ : Type} (client : FactsetClient σ) (sys : LocalSystem σ)
    (fRes : factsetResource) (dir dest : String) :
    List String → σ → List zipCollection → σ → Prop
  | done (s : σ) : Processed client sys fRes dir dest [] s [] s
  | next {archive : String} {rest : List String} {filesToWrite : List String}
      {cols : List zipCollection} {s s1 s2 s3 : σ}
      (hdownload : download client dir archive dest s = (none, s1))
      (hunzip : unzip sys archive (strings.Split fRes.fileNames ";") dest s1
        = ((filesToWrite, none), s2))
      (hrest : Processed client sys fRes dir dest rest s2 cols s3) :
      Processed client sys fRes dir dest (archive :: rest) s (⟨archive, filesToWrite⟩ :: cols) s3

/-- The download or the extraction of `archive` fails from state `s` with error `err`,
leaving state `s'`. -/
def FailsAt {σ : Type} (client : FactsetClient σ) (sys : LocalSystem σ)
    (fRes : factsetResource) (dir dest archive : String) (s : σ) (err : Error) (s' : σ) : Prop :=
  download client dir archive dest s = (some err, s') ∨
    ∃ s1 filesToWrite, download client dir archive dest s = (none, s1) ∧
      unzip sys archive (strings.Split fRes.fileNames ";") dest s1 = ((filesToWrite, some err), s')

/-- The path `p` lies under the directory `dir`: it starts with the cleaned `dir`
followed by `/`. -/
def isUnder (dir p : String) : Bool :=
  ((path.Clean dir).toList ++ ['/']).isPrefixOf p.toList

/-- What `path.Clean` makes of the directory part `d` of a path `d/rest`, including the
slash that follows it: a leading `/` when `d` is empty or rooted, then the kept elements
of `d`, each followed by `/`. -/
def cleanedRoot (d : List Char) : List Char :=
  let rooted : Bool := d = [] ∨ d.head? = some '/'
  let stack := (splitSlash d).foldl (cleanStep rooted) []
  (if rooted then ['/'] else []) ++ (if stack = [] then [] else joinSlash stack.reverse ++ ['/'])

/-- A member name all of whose path elements are proper names: none is empty, `.`
or `..`. -/
def PlainName (name : String) : Prop :=
  ∀ e ∈ splitSlash name.toList, e ≠ [] ∧ e ≠ ['.'] ∧ e ≠ ['.', '.']

instance (name : String) : Decidable (PlainName name) := by
  unfold PlainName; exact inferInstance

/-- A local system in which every operation succeeds, every archive has the members
`members`, and the state is the list of the paths passed to `os.Create` so far. -/
def recordingSystem (members : List String) : LocalSystem (List String) where
  zipOpenReader := fun _ created => ((members, none), created)
  zipFileOpen := fun _ created => (none, created)
  osCreate := fun name created => (none, created ++ [name])
  ioCopy := fun _ _ created => (none, created)
  fileClose := fun _ created => created
  rcClose := fun _ created => created
  zipClose := fun created => created

/-- A local system that behaves as `sys` and also keeps, next to the state of `sys`, the
list of the paths that `os.Create` has created so far (a failed `os.Create` adds
nothing). -/
def recordCreates {σ : Type} (sys : LocalSystem σ) : LocalSystem (σ × List String) where
  zipOpenReader := fun name st =>
    match sys.zipOpenReader name st.1 with
    | (r, s1) => (r, (s1, st.2))
  zipFileOpen := fun name st =>
    match sys.zipFileOpen name st.1 with
    | (r, s1) => (r, (s1, st.2))
  osCreate := fun name st =>
    match sys.osCreate name st.1 with
    | (none, s1) => (none, (s1, st.2 ++ [name]))
    | (some err, s1) => (some err, (s1, st.2))
  ioCopy := fun file name st =>
    match sys.ioCopy file name st.1 with
    | (r, s1) => (r, (s1, st.2))
  fileClose := fun name st => (sys.fileClose name st.1, st.2)
  rcClose := fun name st => (sys.rcClose name st.1, st.2)
  zipClose := fun st => (sys.zipClose st.1, st.2)

/-- Walking the path elements of a name from depth `depth` inside a directory: empty and
`.` elements stay, `..` goes one level up and fails (`none`) at depth `0`, any other
element goes one level down.  The result is the final depth. -/
def climb : Nat → List (List Char) → Option Nat
  | depth, [] => some depth
  | depth, e :: es =>
    if e = [] ∨ e = ['.'] then climb depth es
    else if e = ['.', '.'] then
      match depth with
      | 0 => none
      | d + 1 => climb d es
    else climb (depth + 1) es

/-- The name designates something inside the directory it is joined to: walking its
path elements never goes above the directory and ends at least one level below it. -/
def staysInside (name : String) : Bool :=
  match climb 0 (splitSlash name.toList) with
  | some (_ + 1) => true
  | _ => false

/-- The name cleaned as a relative path: its kept path elements joined with `/`. -/
def insideName (name : String) : String :=
  String.mk (joinSlash ((splitSlash name.toList).foldl (cleanStep false) []).reverse)

/-- A client for the examples: the remote directory holds `listing`, and the download of
the path `failing` fails. -/
def exampleClient (listing : List FileInfo) (failing : String) : FactsetClient Unit where
  ReadDir := fun _ s => ((listing, none), s)
  Download := fun p _ s => (if p = failing then some "download failed" else none, s)

/-- A local system for the examples: every archive has the members `members` and every
operation succeeds. -/
def exampleSystem (members : List String) : LocalSystem Unit where
  zipOpenReader := fun _ s => ((members, none), s)
  zipFileOpen := fun _ s => (none, s)
  osCreate := fun _ s => (none, s)
  ioCopy := fun _ _ s => (none, s)
  fileClose := fun _ s => s
  rcClose := fun _ s => s
  zipClose := fun s => s

/-- The digit run that the major pattern matches in a name: the digits after the `v` of
the match (empty when the pattern does not match). -/
def majorDigitRun (name : String) : List Char :=
  match findMajorSubmatch (strings.TrimSuffix name ".zip").toList with
  | some (m :: _) => m.drop 1
  | _ => []

/-- The digit run that the minor pattern matches in a name: the digits after the `_` of
the match (empty when the pattern does not match). -/
def minorDigitRun (name : String) : List Char :=
  match findMinorSubmatch (strings.TrimSuffix name ".zip").toList with
  | some (m :: _) => m.drop 1
  | _ => []

/-- Both version digit runs of a name denote numbers that fit in a Go `int`. -/
def DigitRunsFit (name : String) : Prop :=
  decimalValue (majorDigitRun name) ≤ maxInt ∧ decimalValue (minorDigitRun name) ≤ maxInt

instance (name : String) : Decidable (DigitRunsFit name) := by
  unfold DigitRunsFit; exact inferInstance

/-- The text has no `v` immediately followed by a digit. -/
def NoMajorMarkerIn (a : List Char) : Prop :=
  ¬ ∃ a1 d a2, a = a1 ++ 'v' :: d :: a2 ∧ d.isDigit = true

/-- The selection test of `unzip` (reader.go 149-150): the member's name contains the
requested name with a trailing `.txt` removed. -/
def selects (fName factsetFile : String) : Bool :=
  strings.Contains fName (strings.TrimSuffix factsetFile ".txt")

/-- The pairs (member, requested name) that pass the selection test, ordered by member
and then by requested name. -/
def selectedPairs (members factsetFiles : List String) : List (String × String) :=
  members.flatMap (fun m => (factsetFiles.filter (selects m)).map (fun r => (m, r)))

/-- The name `unzip` appends to its result for a member (reader.go 174): the created
path with the text of the directory and a slash removed from its front. -/
def extractedName (archive dest fName : String) : String :=
  strings.TrimPrefix (extractPath archive dest fName) (cadenceDir archive dest ++ "/")

/-- Decimal digits of a number, most significant first, without leading zeros. -/
def decimalDigits (n : Nat) : List Char :=
  if n < 10 then [Nat.digitChar n] else decimalDigits (n / 10) ++ [Nat.digitChar (n % 10)]
termination_by n
decreasing_by omega

/-! ## Lemmas on the version patterns -/

theorem findMajorSubmatch_eq_some {s : List Char} {m : List (List Char)}
    (h : findMajorSubmatch s = some m) :
    ∃ a ds b, s = a ++ 'v' :: ds ++ b ∧ m = ['v' :: ds] ∧ ds ≠ [] ∧
      ds.all Char.isDigit = true ∧ ds = (ds ++ b).takeWhile Char.isDigit := by
  induction s with
  | nil => simp [findMajorSubmatch] at h
  | cons c rest ih =>
    unfold findMajorSubmatch at h
    split at h
    · rename_i hc
      obtain ⟨hcv, hne⟩ := hc
      subst hcv
      refine ⟨[], rest.takeWhile Char.isDigit, rest.dropWhile Char.isDigit, ?_, ?_, hne, ?_, ?_⟩
      · simp [List.takeWhile_append_dropWhile]
      · simpa using h.symm
      · simp only [List.all_eq_true]
        intro x hx
        exact List.mem_takeWhile_imp hx
      · rw [List.takeWhile_append_dropWhile]
    · obtain ⟨a, ds, b, hs, hm, hne, hall, htw⟩ := ih h
      exact ⟨c :: a, ds, b, by simp [hs], hm, hne, hall, htw⟩

theorem findMajorSubmatch_eq_none_iff (s : List Char) :
    findMajorSubmatch s = none ↔ ¬ ∃ a d b, s = a ++ 'v' :: d :: b ∧ d.isDigit = true := by
  induction s with
  | nil => simp [findMajorSubmatch]
  | cons c rest ih =>
    unfold findMajorSubmatch
    split
    · rename_i hc
      obtain ⟨hcv, hne⟩ := hc
      subst hcv
      simp only [reduceCtorEq, false_iff, not_not]
      cases rest with
      | nil => simp at hne
      | cons d b =>
        refine ⟨[], d, b, rfl, ?_⟩
        by_contra hd
        simp [List.takeWhile, hd] at hne
    · rename_i hc
      rw [ih]
      constructor
      · rintro hno ⟨a, d, b, hs, hd⟩
        cases a with
        | nil =>
          simp only [List.nil_append, List.cons.injEq] at hs
          apply hc
          refine ⟨hs.1, ?_⟩
          rw [hs.2]
          simp [List.takeWhile, hd]
        | cons x a =>
          simp only [List.cons_append, List.cons.injEq] at hs
          exact hno ⟨a, d, b, hs.2, hd⟩
      · rintro hno ⟨a, d, b, hs, hd⟩
        exact hno ⟨c :: a, d, b, by simp [hs], hd⟩

theorem findMinorSubmatch_eq_some {s : List Char} {m : List (List Char)}
    (h : findMinorSubmatch s = some m) :
    ∃ a ds, s = a ++ '_' :: ds ∧ m = ['_' :: ds] ∧ ds ≠ [] ∧ ds.all Char.isDigit = true := by
  induction s with
  | nil => simp [findMinorSubmatch] at h
  | cons c rest ih =>
    unfold findMinorSubmatch at h
    split at h
    · rename_i hc
      obtain ⟨hcv, hne, hall⟩ := hc
      subst hcv
      exact ⟨[], rest, rfl, by simpa using h.symm, hne, hall⟩
    · obtain ⟨a, ds, hs, hm, hne, hall⟩ := ih h
      exact ⟨c :: a, ds, by simp [hs], hm, hne, hall⟩

theorem findMinorSubmatch_eq_none_iff (s : List Char) :
    findMinorSubmatch s = none ↔
      ¬ ∃ a ds, s = a ++ '_' :: ds ∧ ds ≠ [] ∧ ∀ c ∈ ds, c.isDigit = true := by
  induction s with
  | nil => simp [findMinorSubmatch]
  | cons c rest ih =>
    unfold findMinorSubmatch
    split
    · rename_i hc
      obtain ⟨hcv, hne, hall⟩ := hc
      subst hcv
      simp only [reduceCtorEq, false_iff, not_not]
      exact ⟨[], rest, rfl, hne, by simpa using hall⟩
    · rename_i hc
      rw [ih]
      constructor
      · rintro hno ⟨a, ds, hs, hne, hall⟩
        cases a with
        | nil =>
          simp only [List.nil_append, List.cons.injEq] at hs
          apply hc
          refine ⟨hs.1, ?_, ?_⟩
          · rw [hs.2]; exact hne
          · rw [hs.2]; simpa using hall
        | cons x a =>
          simp only [List.cons_append, List.cons.injEq] at hs
          exact hno ⟨a, ds, hs.2, hne, hall⟩
      · rintro hno ⟨a, ds, hs, hne, hall⟩
        exact hno ⟨c :: a, ds, by simp [hs], hne, hall⟩

/-! ## Lemmas on the version parser -/

theorem atoi_digits (ds : List Char) (hne : ds ≠ []) (hall : ds.all Char.isDigit = true) :
    (strconv.Atoi (String.mk ds)).1 = ((min (decimalValue ds) maxInt : Nat) : Int) := by
  cases ds with
  | nil => exact absurd rfl hne
  | cons c t =>
    have hc : c.isDigit = true := by
      simp only [List.all_cons, Bool.and_eq_true] at hall
      exact hall.1
    have h1 : c ≠ '-' := by rintro rfl; revert hc; decide
    have h2 : c ≠ '+' := by rintro rfl; revert hc; decide
    simp only [strconv.Atoi, String.toList, h1, h2, if_false, hall, not_true_eq_false,
      or_false, reduceCtorEq]
    by_cases hv : decimalValue (c :: t) ≤ maxInt
    · simp [hv]
    · simp only [hv, if_false]
      rw [Nat.min_eq_right (Nat.le_of_not_le hv)]

theorem getMajorVersion_of_match {name : String} {ds : List Char}
    (h : findMajorSubmatch (strings.TrimSuffix name ".zip").toList = some ['v' :: ds])
    (hne : ds ≠ []) (hall : ds.all Char.isDigit = true) :
    getMajorVersion name = (((min (decimalValue ds) maxInt : Nat) : Int), none) := by
  have ht : strings.TrimPrefix (String.mk ('v' :: ds)) "v" = String.mk ds := by
    simp [strings.TrimPrefix, trimPrefixChars, String.toList]
  simp only [getMajorVersion, h, List.length_singleton, gt_iff_lt, lt_self_iff_false,
    if_false, List.headD_cons, ht, atoi_digits ds hne hall]

theorem getMinorVersion_of_match {name : String} {ds : List Char}
    (h : findMinorSubmatch (strings.TrimSuffix name ".zip").toList = some ['_' :: ds])
    (hne : ds ≠ []) (hall : ds.all Char.isDigit = true) :
    getMinorVersion name = (((min (decimalValue ds) maxInt : Nat) : Int), none) := by
  have ht : strings.TrimPrefix (String.mk ('_' :: ds)) "_" = String.mk ds := by
    simp [strings.TrimPrefix, trimPrefixChars, String.toList]
  simp only [getMinorVersion, h, List.length_singleton, gt_iff_lt, lt_self_iff_false,
    if_false, List.headD_cons, ht, atoi_digits ds hne hall]

/-- The result of `getMajorVersion`: either the missing-version error or a value `≥ 0`. -/
theorem getMajorVersion_cases (name : String) :
    (¬ HasMajorMarker name ∧ getMajorVersion name = (-1, some errMajorMissing)) ∨
    (HasMajorMarker name ∧ ∃ v : Nat, getMajorVersion name = ((v : Int), none)) := by
  rcases hm : findMajorSubmatch (strings.TrimSuffix name ".zip").toList with _ | m
  · left
    refine ⟨(findMajorSubmatch_eq_none_iff _).1 hm, ?_⟩
    simp only [getMajorVersion, hm]
  · right
    have hsome : ¬ findMajorSubmatch (strings.TrimSuffix name ".zip").toList = none := by
      rw [hm]; simp
    rw [findMajorSubmatch_eq_none_iff, not_not] at hsome
    obtain ⟨a, ds, b, -, hmm, hne, hall, -⟩ := findMajorSubmatch_eq_some hm
    subst hmm
    exact ⟨hsome, _, getMajorVersion_of_match hm hne hall⟩

/-- The result of `getMinorVersion`: either the missing-version error or a value `≥ 0`. -/
theorem getMinorVersion_cases (name : String) :
    (¬ HasMinorMarker name ∧ getMinorVersion name = (-1, some errMinorMissing)) ∨
    (HasMinorMarker name ∧ ∃ v : Nat, getMinorVersion name = ((v : Int), none)) := by
  rcases hm : findMinorSubmatch (strings.TrimSuffix name ".zip").toList with _ | m
  · left
    refine ⟨(findMinorSubmatch_eq_none_iff _).1 hm, ?_⟩
    simp only [getMinorVersion, hm]
  · right
    have hsome : ¬ findMinorSubmatch (strings.TrimSuffix name ".zip").toList = none := by
      rw [hm]; simp
    rw [findMinorSubmatch_eq_none_iff, not_not] at hsome
    obtain ⟨a, ds, -, hmm, hne, hall⟩ := findMinorSubmatch_eq_some hm
    subst hmm
    exact ⟨hsome, _, getMinorVersion_of_match hm hne hall⟩

theorem wellFormed_iff_markers (name : String) :
    WellFormed name ↔ HasMajorMarker name ∧ HasMinorMarker name := by
  unfold WellFormed
  rcases getMajorVersion_cases name with ⟨h1, e1⟩ | ⟨h1, v1, e1⟩ <;>
    rcases getMinorVersion_cases name with ⟨h2, e2⟩ | ⟨h2, v2, e2⟩ <;>
    simp [e1, e2, h1, h2]

theorem wellFormed_parse {name : String} (h : WellFormed name) :
    getMajorVersion name = ((parsedPair name).1, none) ∧
    getMinorVersion name = ((parsedPair name).2, none) ∧
    0 ≤ (parsedPair name).1 ∧ 0 ≤ (parsedPair name).2 := by
  unfold WellFormed at h
  unfold parsedPair
  rcases getMajorVersion_cases name with ⟨-, e1⟩ | ⟨-, v1, e1⟩
  · rw [e1] at h; simp at h
  rcases getMinorVersion_cases name with ⟨-, e2⟩ | ⟨-, v2, e2⟩
  · rw [e2] at h; simp at h
  rw [e1, e2]
  simp

/-! ## Lemmas on the two passes of the resolver -/

theorem scanVersions_cons_wellFormed (file : FileInfo) (rest : List FileInfo)
    (foundFile : FoundFile) (h : WellFormed file.Name) :
    scanVersions (file :: rest) foundFile =
      if (parsedPair file.Name).1 > foundFile.majorVersion ∨
          ((parsedPair file.Name).1 = foundFile.majorVersion ∧
            (parsedPair file.Name).2 > foundFile.minorVersion) then
        scanVersions rest ⟨file.Name, (parsedPair file.Name).1, (parsedPair file.Name).2⟩
      else scanVersions rest foundFile := by
  obtain ⟨e1, e2, -, -⟩ := wellFormed_parse h
  rw [scanVersions, e1]
  simp only []
  rw [e2]

theorem scanVersions_cons_malformed (file : FileInfo) (rest : List FileInfo)
    (foundFile : FoundFile) (h : ¬ WellFormed file.Name) :
    scanVersions (file :: rest) foundFile =
      (foundFile, some (if (getMajorVersion file.Name).2 = none then errMinorMissing
        else errMajorMissing)) := by
  rcases getMajorVersion_cases file.Name with ⟨h1, e1⟩ | ⟨h1, v1, e1⟩
  · rw [scanVersions, e1]
    simp
  · rcases getMinorVersion_cases file.Name with ⟨h2, e2⟩ | ⟨h2, v2, e2⟩
    · rw [scanVersions, e1]
      simp only []
      rw [e2]
      simp
    · exact absurd ((wellFormed_iff_markers _).2 ⟨h1, h2⟩) h

/-- On a listing of well-formed names the first pass ends without error, and the pair
it holds is the greatest of the starting pair and the parsed pairs of all entries. -/
theorem scanVersions_wellFormed (files : List FileInfo) :
    ∀ foundFile : FoundFile, (∀ f ∈ files, WellFormed f.Name) →
    ∃ best : FoundFile, scanVersions files foundFile = (best, none) ∧
      ((best.majorVersion, best.minorVersion) = (foundFile.majorVersion, foundFile.minorVersion) ∨
        ∃ f ∈ files, parsedPair f.Name = (best.majorVersion, best.minorVersion)) ∧
      pairLe (foundFile.majorVersion, foundFile.minorVersion)
        (best.majorVersion, best.minorVersion) ∧
      ∀ f ∈ files, pairLe (parsedPair f.Name) (best.majorVersion, best.minorVersion) := by
  induction files with
  | nil =>
    intro foundFile _
    exact ⟨foundFile, rfl, Or.inl rfl, Or.inr ⟨rfl, le_refl _⟩, by simp⟩
  | cons file rest ih =>
    intro foundFile hwf
    have hfile : WellFormed file.Name := hwf file (List.mem_cons_self _ _)
    have hrest : ∀ f ∈ rest, WellFormed f.Name := fun f hf => hwf f (List.mem_cons_of_mem _ hf)
    rw [scanVersions_cons_wellFormed file rest foundFile hfile]
    split
    · rename_i hgt
      obtain ⟨best, hb, hmem, hle, hall⟩ := ih ⟨file.Name, _, _⟩ hrest
      refine ⟨best, hb, ?_, ?_, ?_⟩
      · right
        rcases hmem with heq | ⟨f, hf, hp⟩
        · exact ⟨file, List.mem_cons_self _ _, by rw [heq]⟩
        · exact ⟨f, List.mem_cons_of_mem _ hf, hp⟩
      · simp only [pairLe] at hle ⊢
        omega
      · intro f hf
        rcases List.mem_cons.1 hf with rfl | hf
        · simpa using hle
        · exact hall f hf
    · rename_i hgt
      obtain ⟨best, hb, hmem, hle, hall⟩ := ih foundFile hrest
      refine ⟨best, hb, ?_, hle, ?_⟩
      · rcases hmem with heq | ⟨f, hf, hp⟩
        · exact Or.inl heq
        · exact Or.inr ⟨f, List.mem_cons_of_mem _ hf, hp⟩
      · intro f hf
        rcases List.mem_cons.1 hf with rfl | hf
        · simp only [pairLe] at hle ⊢
          omega
        · exact hall f hf

/-- The first pass stops at the first malformed entry with that entry's error. -/
theorem scanVersions_first_malformed (pre post : List FileInfo) (bad : FileInfo) :
    ∀ foundFile : FoundFile, (∀ f ∈ pre, WellFormed f.Name) → ¬ WellFormed bad.Name →
    (scanVersions (pre ++ bad :: post) foundFile).2 =
      some (if (getMajorVersion bad.Name).2 = none then errMinorMissing
        else errMajorMissing) := by
  induction pre with
  | nil =>
    intro foundFile _ hbad
    rw [List.nil_append, scanVersions_cons_malformed _ _ _ hbad]
  | cons file rest ih =>
    intro foundFile hwf hbad
    have hfile : WellFormed file.Name := hwf file (List.mem_cons_self _ _)
    have hrest : ∀ f ∈ rest, WellFormed f.Name := fun f hf => hwf f (List.mem_cons_of_mem _ hf)
    rw [List.cons_append, scanVersions_cons_wellFormed file _ foundFile hfile]
    split
    · exact ih _ hrest hbad
    · exact ih _ hrest hbad

/-- The first pass ends without error exactly on listings of well-formed names. -/
theorem scanVersions_ok_iff (files : List FileInfo) (foundFile : FoundFile) :
    (scanVersions files foundFile).2 = none ↔ ∀ f ∈ files, WellFormed f.Name := by
  constructor
  · induction files generalizing foundFile with
    | nil => intro _ f hf; simp at hf
    | cons file rest ih =>
      intro h f hf
      by_cases hfile : WellFormed file.Name
      · rw [scanVersions_cons_wellFormed file rest foundFile hfile] at h
        rcases List.mem_cons.1 hf with rfl | hf
        · exact hfile
        · split at h
          · exact ih _ h f hf
          · exact ih _ h f hf
      · rw [scanVersions_cons_malformed file rest foundFile hfile] at h
        simp at h
  · intro hwf
    obtain ⟨best, hb, -⟩ := scanVersions_wellFormed files foundFile hwf
    rw [hb]

/-- The second pass is a filter of the listing's names, in listing order. -/
theorem collectMatches_eq_filter (searchedFileName : String) (foundFile : FoundFile)
    (files : List FileInfo) : ∀ acc : List String,
    collectMatches searchedFileName foundFile files acc =
      acc ++ (files.map FileInfo.Name).filter
        (matchesResolved searchedFileName foundFile.majorVersion foundFile.minorVersion) := by
  induction files with
  | nil => intro acc; simp [collectMatches]
  | cons file rest ih =>
    intro acc
    rw [collectMatches]
    simp only [List.map_cons, List.filter_cons, matchesResolved]
    by_cases h1 : strings.Contains file.Name searchedFileName = true <;>
      by_cases h2 : (strings.Contains file.Name (strconv.Itoa foundFile.minorVersion) &&
          strings.Contains file.Name (strconv.Itoa foundFile.majorVersion)) = true <;>
      simp [h1, h2, ih, matchesResolved]

/-- The function `GetMostRecentZips` in terms of its two passes, when the first pass succeeds. -/
theorem GetMostRecentZips_of_scan {files : List FileInfo} {best : FoundFile}
    (h : scanVersions files ⟨"", 0, 0⟩ = (best, none)) (searchedFileName : String) :
    GetMostRecentZips files searchedFileName =
      let found := (files.map FileInfo.Name).filter
        (matchesResolved searchedFileName best.majorVersion best.minorVersion)
      if found.length > 0 then (found, none)
      else ([], some (errNoMatch searchedFileName (strconv.Itoa best.majorVersion)
        (strconv.Itoa best.minorVersion))) := by
  simp only [GetMostRecentZips, h, collectMatches_eq_filter, List.nil_append]
  split
  · rfl
  · rename_i hlen
    simp only [gt_iff_lt, List.length_pos, ne_eq, not_not] at hlen
    rw [hlen]

/-- The function `GetMostRecentZips` when the first pass fails. -/
theorem GetMostRecentZips_of_scan_error {files : List FileInfo} {best : FoundFile} {err : Error}
    (h : scanVersions files ⟨"", 0, 0⟩ = (best, some err)) (searchedFileName : String) :
    GetMostRecentZips files searchedFileName = ([], some err) := by
  simp only [GetMostRecentZips, h]

theorem exists_first_failing {α : Type} (P : α → Prop) (l : List α) (h : ∃ x ∈ l, ¬ P x) :
    ∃ pre bad post, l = pre ++ bad :: post ∧ (∀ x ∈ pre, P x) ∧ ¬ P bad := by
  induction l with
  | nil => obtain ⟨x, hx, -⟩ := h; simp at hx
  | cons y rest ih =>
    by_cases hy : P y
    · obtain ⟨x, hx, hnx⟩ := h
      rcases List.mem_cons.1 hx with rfl | hx
      · exact absurd hy hnx
      · obtain ⟨pre, bad, post, hl, hpre, hbad⟩ := ih ⟨x, hx, hnx⟩
        refine ⟨y :: pre, bad, post, by simp [hl], ?_, hbad⟩
        intro z hz
        rcases List.mem_cons.1 hz with rfl | hz
        · exact hy
        · exact hpre z hz
    · exact ⟨[], y, rest, rfl, by simp, hy⟩

/-! ## The resolver: claims -/

/-- C1: on a non-empty listing of well-formed names the first pass of `GetMostRecentZips`
ends with a pair that is the parsed pair of some entry and is greater than or equal to
the parsed pair of every entry of the listing (major first, then minor); the second pass
matches against that pair, and the pair is the same for every search term. -/
theorem C1_resolved_pair_is_listing_maximum (files : List FileInfo) (hne : files ≠ [])
    (hwf : ∀ f ∈ files, WellFormed f.Name) :
    ∃ best : FoundFile, scanVersions files ⟨"", 0, 0⟩ = (best, none) ∧
      (∃ f ∈ files, parsedPair f.Name = (best.majorVersion, best.minorVersion)) ∧
      (∀ f ∈ files, pairLe (parsedPair f.Name) (best.majorVersion, best.minorVersion)) ∧
      ∀ searchedFileName : String,
        (GetMostRecentZips files searchedFileName).1 =
          collectMatches searchedFileName best files [] := by
  obtain ⟨best, hb, hmem, -, hall⟩ := scanVersions_wellFormed files ⟨"", 0, 0⟩ hwf
  refine ⟨best, hb, ?_, hall, ?_⟩
  · rcases hmem with heq | hex
    · cases files with
      | nil => exact absurd rfl hne
      | cons file rest =>
        refine ⟨file, List.mem_cons_self _ _, ?_⟩
        have hle := hall file (List.mem_cons_self _ _)
        obtain ⟨-, -, h1, h2⟩ := wellFormed_parse (hwf file (List.mem_cons_self _ _))
        simp only [Prod.mk.injEq] at heq
        simp only [pairLe] at hle
        apply Prod.ext
        · simp only []; omega
        · simp only []; omega
    · exact hex
  · intro searchedFileName
    simp only [GetMostRecentZips, hb]
    split <;> rfl

/-- C1 at the listing `prices_v1_1.zip, prices_v2_3.zip, rates_v2_3.zip`. -/
theorem C1_resolved_pair_is_listing_maximum_witness :
    ∃ best : FoundFile,
      scanVersions [⟨"prices_v1_1.zip"⟩, ⟨"prices_v2_3.zip"⟩, ⟨"rates_v2_3.zip"⟩] ⟨"", 0, 0⟩
        = (best, none) ∧
      (∃ f ∈ [(⟨"prices_v1_1.zip"⟩ : FileInfo), ⟨"prices_v2_3.zip"⟩, ⟨"rates_v2_3.zip"⟩],
        parsedPair f.Name = (best.majorVersion, best.minorVersion)) ∧
      (∀ f ∈ [(⟨"prices_v1_1.zip"⟩ : FileInfo), ⟨"prices_v2_3.zip"⟩, ⟨"rates_v2_3.zip"⟩],
        pairLe (parsedPair f.Name) (best.majorVersion, best.minorVersion)) ∧
      ∀ searchedFileName : String,
        (GetMostRecentZips [⟨"prices_v1_1.zip"⟩, ⟨"prices_v2_3.zip"⟩, ⟨"rates_v2_3.zip"⟩]
          searchedFileName).1 =
          collectMatches searchedFileName best
            [⟨"prices_v1_1.zip"⟩, ⟨"prices_v2_3.zip"⟩, ⟨"rates_v2_3.zip"⟩] [] :=
  C1_resolved_pair_is_listing_maximum
    [⟨"prices_v1_1.zip"⟩, ⟨"prices_v2_3.zip"⟩, ⟨"rates_v2_3.zip"⟩] (by decide) (by decide)

/-- C2: whenever `GetMostRecentZips` succeeds, the list it returns is the listing's names
filtered, in listing order, by: the name contains the search term, the decimal text of the
resolved minor version and the decimal text of the resolved major version. -/
theorem C2_result_is_substring_filter (files : List FileInfo) (searchedFileName : String)
    (hok : (GetMostRecentZips files searchedFileName).2 = none) :
    ∃ best : FoundFile, scanVersions files ⟨"", 0, 0⟩ = (best, none) ∧
      (GetMostRecentZips files searchedFileName).1 =
        (files.map FileInfo.Name).filter (fun name =>
          strings.Contains name searchedFileName &&
            (strings.Contains name (strconv.Itoa best.minorVersion) &&
              strings.Contains name (strconv.Itoa best.majorVersion))) := by
  rcases hs : scanVersions files ⟨"", 0, 0⟩ with ⟨best, _ | err⟩
  · refine ⟨best, rfl, ?_⟩
    rw [GetMostRecentZips_of_scan hs]
    simp only []
    split
    · rfl
    · rename_i hlen
      simp only [gt_iff_lt, List.length_pos, ne_eq, not_not] at hlen
      rw [← hlen]
      rfl
  · rw [GetMostRecentZips_of_scan_error hs] at hok
    simp at hok

/-- C2 at the scenario of the specification (one name returned) and at a listing where
two names of the resolved version contain the search term (two names returned). -/
theorem C2_result_is_substring_filter_witness :
    ((scanVersions [⟨"prices_v1_1.zip"⟩, ⟨"prices_v2_3.zip"⟩, ⟨"rates_v2_3.zip"⟩] ⟨"", 0, 0⟩
        = (⟨"prices_v2_3.zip", 2, 3⟩, none) ∧
      GetMostRecentZips [⟨"prices_v1_1.zip"⟩, ⟨"prices_v2_3.zip"⟩, ⟨"rates_v2_3.zip"⟩]
        "prices" = (["prices_v2_3.zip"], none)) ∧
      ∃ best : FoundFile,
        scanVersions [⟨"prices_v1_1.zip"⟩, ⟨"prices_v2_3.zip"⟩, ⟨"rates_v2_3.zip"⟩] ⟨"", 0, 0⟩
          = (best, none) ∧
        (GetMostRecentZips [⟨"prices_v1_1.zip"⟩, ⟨"prices_v2_3.zip"⟩, ⟨"rates_v2_3.zip"⟩]
          "prices").1 =
          ([(⟨"prices_v1_1.zip"⟩ : FileInfo), ⟨"prices_v2_3.zip"⟩, ⟨"rates_v2_3.zip"⟩].map
            FileInfo.Name).filter (fun name =>
              strings.Contains name "prices" &&
                (strings.Contains name (strconv.Itoa best.minorVersion) &&
                  strings.Contains name (strconv.Itoa best.majorVersion)))) ∧
    ((GetMostRecentZips [⟨"prices_full_v2_3.zip"⟩, ⟨"prices_v2_3.zip"⟩] "prices"
        = (["prices_full_v2_3.zip", "prices_v2_3.zip"], none)) ∧
      ∃ best : FoundFile,
        scanVersions [⟨"prices_full_v2_3.zip"⟩, ⟨"prices_v2_3.zip"⟩] ⟨"", 0, 0⟩ = (best, none) ∧
        (GetMostRecentZips [⟨"prices_full_v2_3.zip"⟩, ⟨"prices_v2_3.zip"⟩] "prices").1 =
          ([(⟨"prices_full_v2_3.zip"⟩ : FileInfo), ⟨"prices_v2_3.zip"⟩].map
            FileInfo.Name).filter (fun name =>
              strings.Contains name "prices" &&
                (strings.Contains name (strconv.Itoa best.minorVersion) &&
                  strings.Contains name (strconv.Itoa best.majorVersion)))) :=
  ⟨⟨⟨by decide, by decide⟩, C2_result_is_substring_filter
      [⟨"prices_v1_1.zip"⟩, ⟨"prices_v2_3.zip"⟩, ⟨"rates_v2_3.zip"⟩] "prices" (by decide)⟩,
    ⟨by decide, C2_result_is_substring_filter
      [⟨"prices_full_v2_3.zip"⟩, ⟨"prices_v2_3.zip"⟩] "prices" (by decide)⟩⟩

/-- C3 as stated fails: in the listing `prices_v1_2.zip, prices_v2_1.zip` the resolved pair
is `(2, 1)`, the call succeeds, and `prices_v1_2.zip` is returned although its own pair is
`(1, 2)`: its name contains the texts `1` and `2`. -/
theorem C3_counterexample_older_version_returned :
    scanVersions [⟨"prices_v1_2.zip"⟩, ⟨"prices_v2_1.zip"⟩] ⟨"", 0, 0⟩
      = (⟨"prices_v2_1.zip", 2, 1⟩, none) ∧
    (GetMostRecentZips [⟨"prices_v1_2.zip"⟩, ⟨"prices_v2_1.zip"⟩] "prices").2 = none ∧
    "prices_v1_2.zip" ∈ (GetMostRecentZips [⟨"prices_v1_2.zip"⟩, ⟨"prices_v2_1.zip"⟩] "prices").1 ∧
    parsedPair "prices_v1_2.zip" = (1, 2) ∧
    parsedPair "prices_v1_2.zip" ≠ (2, 1) := by
  decide

/-- C3 amended: whenever `GetMostRecentZips` succeeds, every returned name is the name of
an entry of the listing, contains the search term, contains the decimal text of the
resolved major version and of the resolved minor version, and its own parsed pair is at
most the resolved pair. -/
theorem C3_returned_names_match_by_text (files : List FileInfo) (searchedFileName : String)
    (hok : (GetMostRecentZips files searchedFileName).2 = none) :
    ∃ best : FoundFile, scanVersions files ⟨"", 0, 0⟩ = (best, none) ∧
      ∀ name ∈ (GetMostRecentZips files searchedFileName).1,
        (∃ f ∈ files, f.Name = name) ∧
        strings.Contains name searchedFileName = true ∧
        strings.Contains name (strconv.Itoa best.majorVersion) = true ∧
        strings.Contains name (strconv.Itoa best.minorVersion) = true ∧
        pairLe (parsedPair name) (best.majorVersion, best.minorVersion) := by
  rcases hs : scanVersions files ⟨"", 0, 0⟩ with ⟨best, _ | err⟩
  · refine ⟨best, rfl, ?_⟩
    have hwf : ∀ f ∈ files, WellFormed f.Name := by
      apply (scanVersions_ok_iff files ⟨"", 0, 0⟩).1
      rw [hs]
    obtain ⟨best1, hb1, -, -, hall⟩ := scanVersions_wellFormed files ⟨"", 0, 0⟩ hwf
    rw [hs] at hb1
    simp only [Prod.mk.injEq, and_true] at hb1
    subst hb1
    intro name hname
    rw [GetMostRecentZips_of_scan hs] at hname
    simp only [] at hname
    have hmem : name ∈ (files.map FileInfo.Name).filter
        (matchesResolved searchedFileName best.majorVersion best.minorVersion) := by
      split at hname
      · exact hname
      · simp at hname
    rw [List.mem_filter, List.mem_map] at hmem
    obtain ⟨⟨f, hf, hfn⟩, hm⟩ := hmem
    simp only [matchesResolved, Bool.and_eq_true] at hm
    refine ⟨⟨f, hf, hfn⟩, hm.1, hm.2.2, hm.2.1, ?_⟩
    rw [← hfn]
    exact hall f hf
  · rw [GetMostRecentZips_of_scan_error hs] at hok
    simp at hok

/-- C3 amended, at the listing `prices_v1_2.zip, prices_v2_1.zip`. -/
theorem C3_returned_names_match_by_text_witness :
    ∃ best : FoundFile,
      scanVersions [⟨"prices_v1_2.zip"⟩, ⟨"prices_v2_1.zip"⟩] ⟨"", 0, 0⟩ = (best, none) ∧
      ∀ name ∈ (GetMostRecentZips [⟨"prices_v1_2.zip"⟩, ⟨"prices_v2_1.zip"⟩] "prices").1,
        (∃ f ∈ [(⟨"prices_v1_2.zip"⟩ : FileInfo), ⟨"prices_v2_1.zip"⟩], f.Name = name) ∧
        strings.Contains name "prices" = true ∧
        strings.Contains name (strconv.Itoa best.majorVersion) = true ∧
        strings.Contains name (strconv.Itoa best.minorVersion) = true ∧
        pairLe (parsedPair name) (best.majorVersion, best.minorVersion) :=
  C3_returned_names_match_by_text [⟨"prices_v1_2.zip"⟩, ⟨"prices_v2_1.zip"⟩] "prices"
    (by decide)

/-- C4: if some entry of the listing lacks the major marker or the minor marker, then
`GetMostRecentZips` returns the empty list and an error for every search term; the error
is the one of the first such entry in listing order: the missing-major error when that
entry has no major marker, the missing-minor error otherwise. -/
theorem C4_malformed_entry_aborts_resolution (files : List FileInfo)
    (searchedFileName : String)
    (h : ∃ f ∈ files, ¬ (HasMajorMarker f.Name ∧ HasMinorMarker f.Name)) :
    ∃ pre bad post, files = pre ++ bad :: post ∧
      (∀ f ∈ pre, HasMajorMarker f.Name ∧ HasMinorMarker f.Name) ∧
      ¬ (HasMajorMarker bad.Name ∧ HasMinorMarker bad.Name) ∧
      ((¬ HasMajorMarker bad.Name ∧
          getMajorVersion bad.Name =
            (-1, some "The major version is missing or not correctly specified!") ∧
          GetMostRecentZips files searchedFileName =
            ([], some "The major version is missing or not correctly specified!")) ∨
        (HasMajorMarker bad.Name ∧ ¬ HasMinorMarker bad.Name ∧
          getMinorVersion bad.Name =
            (-1, some "The minor version is missing or not correctly specified!") ∧
          GetMostRecentZips files searchedFileName =
            ([], some "The minor version is missing or not correctly specified!"))) := by
  obtain ⟨pre, bad, post, hl, hpre, hbad⟩ := exists_first_failing _ files h
  refine ⟨pre, bad, post, hl, hpre, hbad, ?_⟩
  have hpre1 : ∀ f ∈ pre, WellFormed f.Name :=
    fun f hf => (wellFormed_iff_markers _).2 (hpre f hf)
  have hbad1 : ¬ WellFormed bad.Name := fun hw => hbad ((wellFormed_iff_markers _).1 hw)
  have hscan := scanVersions_first_malformed pre post bad ⟨"", 0, 0⟩ hpre1 hbad1
  rw [← hl] at hscan
  rcases hs : scanVersions files ⟨"", 0, 0⟩ with ⟨best, oe⟩
  rw [hs] at hscan
  simp only [] at hscan
  subst hscan
  rw [GetMostRecentZips_of_scan_error hs]
  rcases getMajorVersion_cases bad.Name with ⟨h1, e1⟩ | ⟨h1, v1, e1⟩
  · left
    refine ⟨h1, e1, ?_⟩
    rw [e1]
    rfl
  · right
    rcases getMinorVersion_cases bad.Name with ⟨h2, e2⟩ | ⟨h2, v2, e2⟩
    · refine ⟨h1, h2, e2, ?_⟩
      rw [e1]
      rfl
    · exact absurd ⟨h1, h2⟩ hbad

/-- C4 at the listing `prices_v1_1.zip, readme.txt, prices_v2_3.zip`. -/
theorem C4_malformed_entry_aborts_resolution_witness :
    ∃ pre bad post,
      [(⟨"prices_v1_1.zip"⟩ : FileInfo), ⟨"readme.txt"⟩, ⟨"prices_v2_3.zip"⟩]
        = pre ++ bad :: post ∧
      (∀ f ∈ pre, HasMajorMarker f.Name ∧ HasMinorMarker f.Name) ∧
      ¬ (HasMajorMarker bad.Name ∧ HasMinorMarker bad.Name) ∧
      ((¬ HasMajorMarker bad.Name ∧
          getMajorVersion bad.Name =
            (-1, some "The major version is missing or not correctly specified!") ∧
          GetMostRecentZips [⟨"prices_v1_1.zip"⟩, ⟨"readme.txt"⟩, ⟨"prices_v2_3.zip"⟩] "prices" =
            ([], some "The major version is missing or not correctly specified!")) ∨
        (HasMajorMarker bad.Name ∧ ¬ HasMinorMarker bad.Name ∧
          getMinorVersion bad.Name =
            (-1, some "The minor version is missing or not correctly specified!") ∧
          GetMostRecentZips [⟨"prices_v1_1.zip"⟩, ⟨"readme.txt"⟩, ⟨"prices_v2_3.zip"⟩] "prices" =
            ([], some "The minor version is missing or not correctly specified!"))) :=
  C4_malformed_entry_aborts_resolution
    [⟨"prices_v1_1.zip"⟩, ⟨"readme.txt"⟩, ⟨"prices_v2_3.zip"⟩] "prices"
    ⟨⟨"readme.txt"⟩, by simp,
      fun hm => absurd ((wellFormed_iff_markers "readme.txt").2 hm) (by decide)⟩

/-- C5 fails on the code: the name `a_v1_v2_3.zip` has two major markers, yet
`getMajorVersion` returns `1` without error and `GetMostRecentZips` succeeds on the
listing made of that name; no name at all makes `getMajorVersion` return the
ambiguous-version error. -/
theorem C5_duplicate_major_marker_is_accepted :
    getMajorVersion "a_v1_v2_3.zip" = (1, none) ∧
    GetMostRecentZips [⟨"a_v1_v2_3.zip"⟩] "a" = (["a_v1_v2_3.zip"], none) ∧
    ∀ name : String, (getMajorVersion name).2 ≠ some "More than 1 major version found!" := by
  refine ⟨by decide, by decide, ?_⟩
  intro name
  rcases getMajorVersion_cases name with ⟨-, e1⟩ | ⟨-, v1, e1⟩
  · rw [e1]
    decide
  · rw [e1]
    simp

/-- C6: on a listing of well-formed names (the empty listing included, where the resolved
pair is `(0, 0)`), `GetMostRecentZips` either succeeds or fails with the no-matching-archive
error, whose message carries the search term and the decimal texts of the resolved major
and minor versions; it fails exactly when no entry contains the search term together with
both decimal texts, and then it returns no name. -/
theorem C6_no_match_error_iff_nothing_matches (files : List FileInfo)
    (searchedFileName : String) (hwf : ∀ f ∈ files, WellFormed f.Name) :
    ∃ best : FoundFile, scanVersions files ⟨"", 0, 0⟩ = (best, none) ∧
      (files = [] → best.majorVersion = 0 ∧ best.minorVersion = 0) ∧
      ((GetMostRecentZips files searchedFileName).2 = none ∨
        GetMostRecentZips files searchedFileName =
          ([], some ("Found no matching files with name: " ++ searchedFileName ++
            ", major version: " ++ strconv.Itoa best.majorVersion ++
            ", or minor version: " ++ strconv.Itoa best.minorVersion))) ∧
      ((GetMostRecentZips files searchedFileName).2 ≠ none ↔
        ¬ ∃ f ∈ files, strings.Contains f.Name searchedFileName = true ∧
          strings.Contains f.Name (strconv.Itoa best.majorVersion) = true ∧
          strings.Contains f.Name (strconv.Itoa best.minorVersion) = true) := by
  obtain ⟨best, hb, -⟩ := scanVersions_wellFormed files ⟨"", 0, 0⟩ hwf
  refine ⟨best, hb, ?_, ?_, ?_⟩
  · rintro rfl
    simp only [scanVersions, Prod.mk.injEq, and_true] at hb
    subst hb
    exact ⟨rfl, rfl⟩
  · rw [GetMostRecentZips_of_scan hb]
    simp only []
    split
    · left; rfl
    · right; rfl
  · rw [GetMostRecentZips_of_scan hb]
    simp only []
    split
    · rename_i hlen
      simp only [ne_eq, not_true_eq_false, false_iff, not_not]
      obtain ⟨name, hname⟩ := List.exists_mem_of_length_pos hlen
      rw [List.mem_filter, List.mem_map] at hname
      obtain ⟨⟨f, hf, hfn⟩, hm⟩ := hname
      simp only [matchesResolved, Bool.and_eq_true] at hm
      subst hfn
      exact ⟨f, hf, hm.1, hm.2.2, hm.2.1⟩
    · rename_i hlen
      simp only [ne_eq, reduceCtorEq, not_false_eq_true, true_iff]
      rintro ⟨f, hf, h1, h2, h3⟩
      apply hlen
      apply List.length_pos_of_mem (a := f.Name)
      rw [List.mem_filter, List.mem_map]
      refine ⟨⟨f, hf, rfl⟩, ?_⟩
      simp [matchesResolved, h1, h2, h3]

/-- C6 at three listings with the search term `prices`: a listing where the only entry
with the search term has an older version than the resolved one (the call fails and the
message carries `prices`, `3` and `2`), a listing where the newest entry has the search
term (the call succeeds), and the empty listing (the call fails with `0` and `0`). -/
theorem C6_no_match_error_iff_nothing_matches_witness :
    ((∀ f ∈ [(⟨"prices_v1_4.zip"⟩ : FileInfo), ⟨"rates_v3_2.zip"⟩], WellFormed f.Name) ∧
      scanVersions [⟨"prices_v1_4.zip"⟩, ⟨"rates_v3_2.zip"⟩] ⟨"", 0, 0⟩ = (⟨"rates_v3_2.zip", 3, 2⟩, none) ∧
      GetMostRecentZips [⟨"prices_v1_4.zip"⟩, ⟨"rates_v3_2.zip"⟩] "prices" =
        ([], some
          "Found no matching files with name: prices, major version: 3, or minor version: 2") ∧
      (∃ best : FoundFile, scanVersions [⟨"prices_v1_4.zip"⟩, ⟨"rates_v3_2.zip"⟩] ⟨"", 0, 0⟩ = (best, none) ∧
      (([(⟨"prices_v1_4.zip"⟩ : FileInfo), ⟨"rates_v3_2.zip"⟩] : List FileInfo) = [] → best.majorVersion = 0 ∧ best.minorVersion = 0) ∧
      ((GetMostRecentZips [⟨"prices_v1_4.zip"⟩, ⟨"rates_v3_2.zip"⟩] "prices").2 = none ∨
        GetMostRecentZips [⟨"prices_v1_4.zip"⟩, ⟨"rates_v3_2.zip"⟩] "prices" =
          ([], some ("Found no matching files with name: " ++ "prices" ++
            ", major version: " ++ strconv.Itoa best.majorVersion ++
            ", or minor version: " ++ strconv.Itoa best.minorVersion))) ∧
      ((GetMostRecentZips [⟨"prices_v1_4.zip"⟩, ⟨"rates_v3_2.zip"⟩] "prices").2 ≠ none ↔
        ¬ ∃ f ∈ ([(⟨"prices_v1_4.zip"⟩ : FileInfo), ⟨"rates_v3_2.zip"⟩] : List FileInfo), strings.Contains f.Name "prices" = true ∧
          strings.Contains f.Name (strconv.Itoa best.majorVersion) = true ∧
          strings.Contains f.Name (strconv.Itoa best.minorVersion) = true))) ∧
    ((∀ f ∈ [(⟨"prices_v1_4.zip"⟩ : FileInfo), ⟨"prices_v3_2.zip"⟩], WellFormed f.Name) ∧
      GetMostRecentZips [⟨"prices_v1_4.zip"⟩, ⟨"prices_v3_2.zip"⟩] "prices" = (["prices_v3_2.zip"], none) ∧
      (∃ best : FoundFile, scanVersions [⟨"prices_v1_4.zip"⟩, ⟨"prices_v3_2.zip"⟩] ⟨"", 0, 0⟩ = (best, none) ∧
      (([(⟨"prices_v1_4.zip"⟩ : FileInfo), ⟨"prices_v3_2.zip"⟩] : List FileInfo) = [] → best.majorVersion = 0 ∧ best.minorVersion = 0) ∧
      ((GetMostRecentZips [⟨"prices_v1_4.zip"⟩, ⟨"prices_v3_2.zip"⟩] "prices").2 = none ∨
        GetMostRecentZips [⟨"prices_v1_4.zip"⟩, ⟨"prices_v3_2.zip"⟩] "prices" =
          ([], some ("Found no matching files with name: " ++ "prices" ++
            ", major version: " ++ strconv.Itoa best.majorVersion ++
            ", or minor version: " ++ strconv.Itoa best.minorVersion))) ∧
      ((GetMostRecentZips [⟨"prices_v1_4.zip"⟩, ⟨"prices_v3_2.zip"⟩] "prices").2 ≠ none ↔
        ¬ ∃ f ∈ ([(⟨"prices_v1_4.zip"⟩ : FileInfo), ⟨"prices_v3_2.zip"⟩] : List FileInfo), strings.Contains f.Name "prices" = true ∧
          strings.Contains f.Name (strconv.Itoa best.majorVersion) = true ∧
          strings.Contains f.Name (strconv.Itoa best.minorVersion) = true))) ∧
    (GetMostRecentZips [] "prices" =
      ([], some "Found no matching files with name: prices, major version: 0, or minor version: 0")
      ∧ (∃ best : FoundFile, scanVersions [] ⟨"", 0, 0⟩ = (best, none) ∧
      (([] : List FileInfo) = [] → best.majorVersion = 0 ∧ best.minorVersion = 0) ∧
      ((GetMostRecentZips [] "prices").2 = none ∨
        GetMostRecentZips [] "prices" =
          ([], some ("Found no matching files with name: " ++ "prices" ++
            ", major version: " ++ strconv.Itoa best.majorVersion ++
            ", or minor version: " ++ strconv.Itoa best.minorVersion))) ∧
      ((GetMostRecentZips [] "prices").2 ≠ none ↔
        ¬ ∃ f ∈ ([] : List FileInfo), strings.Contains f.Name "prices" = true ∧
          strings.Contains f.Name (strconv.Itoa best.majorVersion) = true ∧
          strings.Contains f.Name (strconv.Itoa best.minorVersion) = true))) :=
  ⟨⟨by decide, by decide, by decide,
      C6_no_match_error_iff_nothing_matches [⟨"prices_v1_4.zip"⟩, ⟨"rates_v3_2.zip"⟩] "prices" (by decide)⟩,
    ⟨by decide, by decide,
      C6_no_match_error_iff_nothing_matches [⟨"prices_v1_4.zip"⟩, ⟨"prices_v3_2.zip"⟩] "prices" (by decide)⟩,
    ⟨by decide, C6_no_match_error_iff_nothing_matches [] "prices" (by simp)⟩⟩

/-! ## Lemmas on the pipeline -/

theorem onlyWeekly_eq_filter (files : List FileInfo) : ∀ acc : List FileInfo,
    onlyWeekly files acc = acc ++ files.filter (fun f => strings.Contains f.Name "full") := by
  induction files with
  | nil => intro acc; simp [onlyWeekly]
  | cons file rest ih =>
    intro acc
    rw [onlyWeekly]
    by_cases h : strings.Contains file.Name "full" = true <;> simp [h, ih]

theorem GetMostRecentZips_subset {files : List FileInfo} {searchedFileName name : String}
    (h : name ∈ (GetMostRecentZips files searchedFileName).1) : ∃ f ∈ files, f.Name = name := by
  rcases hs : scanVersions files ⟨"", 0, 0⟩ with ⟨best, _ | err⟩
  · rw [GetMostRecentZips_of_scan hs] at h
    simp only [] at h
    split at h
    · rw [List.mem_filter, List.mem_map] at h
      exact h.1
    · simp at h
  · rw [GetMostRecentZips_of_scan_error hs] at h
    simp at h

theorem processArchives_archives {σ : Type} (client : FactsetClient σ) (sys : LocalSystem σ)
    (fRes : factsetResource) (dir dest : String) (archives : List String) :
    ∀ (acc : List zipCollection) (s : σ),
      ∀ c ∈ (processArchives client sys fRes dir dest archives acc s).1.1,
        c ∈ acc ∨ c.archive ∈ archives := by
  induction archives with
  | nil => intro acc s c hc; simpa [processArchives] using hc
  | cons archive rest ih =>
    intro acc s c hc
    rw [processArchives] at hc
    rcases hp : processArchive client sys fRes dir dest archive s with ⟨⟨fs, _ | err⟩, s1⟩
    · rw [hp] at hc
      simp only [] at hc
      rcases ih _ _ c hc with h | h
      · rcases List.mem_append.1 h with h | h
        · exact Or.inl h
        · right
          simp only [List.mem_singleton] at h
          simp [h]
      · exact Or.inr (List.mem_cons_of_mem _ h)
    · rw [hp] at hc
      exact Or.inl hc

theorem processArchive_ok {σ : Type} {client : FactsetClient σ} {sys : LocalSystem σ}
    {fRes : factsetResource} {dir dest archive : String} {filesToWrite : List String}
    {s s1 s2 : σ} (hdownload : download client dir archive dest s = (none, s1))
    (hunzip : unzip sys archive (strings.Split fRes.fileNames ";") dest s1
      = ((filesToWrite, none), s2)) :
    processArchive client sys fRes dir dest archive s = ((filesToWrite, none), s2) := by
  simp only [processArchive, hdownload, hunzip]

theorem processArchive_fails {σ : Type} {client : FactsetClient σ} {sys : LocalSystem σ}
    {fRes : factsetResource} {dir dest archive : String} {err : Error} {s s' : σ}
    (h : FailsAt client sys fRes dir dest archive s err s') :
    ∃ fs, processArchive client sys fRes dir dest archive s = ((fs, some err), s') := by
  rcases h with h | ⟨s1, fs, hd, hu⟩
  · exact ⟨[], by simp only [processArchive, h]⟩
  · exact ⟨fs, by simp only [processArchive, hd, hu]⟩

theorem processArchives_processed {σ : Type} {client : FactsetClient σ} {sys : LocalSystem σ}
    {fRes : factsetResource} {dir dest : String} {pre : List String}
    {cols : List zipCollection} {s s' : σ}
    (h : Processed client sys fRes dir dest pre s cols s') :
    ∀ (rest : List String) (acc : List zipCollection),
      processArchives client sys fRes dir dest (pre ++ rest) acc s =
        processArchives client sys fRes dir dest rest (acc ++ cols) s' := by
  induction h with
  | done s => intro rest acc; simp
  | next hdownload hunzip _ ih =>
    intro rest acc
    rw [List.cons_append, processArchives, processArchive_ok hdownload hunzip]
    simp only []
    rw [ih]
    simp

theorem processed_shape {σ : Type} {client : FactsetClient σ} {sys : LocalSystem σ}
    {fRes : factsetResource} {dir dest : String} {pre : List String}
    {cols : List zipCollection} {s s' : σ}
    (h : Processed client sys fRes dir dest pre s cols s') :
    cols.map zipCollection.archive = pre := by
  induction h with
  | done s => rfl
  | next _ _ _ ih => simp [ih]

theorem processArchives_congr {σ : Type} (client client2 : FactsetClient σ)
    (sys : LocalSystem σ) (fRes : factsetResource) (dir dest : String)
    (hD : client2.Download = client.Download) (archives : List String) :
    ∀ (acc : List zipCollection) (s : σ),
      processArchives client2 sys fRes dir dest archives acc s =
        processArchives client sys fRes dir dest archives acc s := by
  have hstep : ∀ archive s, processArchive client2 sys fRes dir dest archive s =
      processArchive client sys fRes dir dest archive s := by
    intro archive s
    simp only [processArchive, download, hD]
  induction archives with
  | nil => intro acc s; rfl
  | cons archive rest ih =>
    intro acc s
    rw [processArchives, processArchives, hstep]
    rcases processArchive client sys fRes dir dest archive s with ⟨⟨fs, _ | err⟩, s1⟩
    · exact ih _ _
    · rfl

theorem readListing_congr {σ : Type} (client client2 : FactsetClient σ)
    (sys : LocalSystem σ) (fRes : factsetResource) (dest : String)
    (hD : client2.Download = client.Download) (files : List FileInfo) (s : σ) :
    readListing client2 sys fRes dest files s = readListing client sys fRes dest files s := by
  unfold readListing
  rcases GetMostRecentZips files (path.Split fRes.archive).2 with ⟨names, _ | err⟩
  · exact processArchives_congr client client2 sys fRes _ dest hD names [] s
  · rfl

theorem readListing_archives {σ : Type} (client : FactsetClient σ) (sys : LocalSystem σ)
    (fRes : factsetResource) (dest : String) (files : List FileInfo) (s : σ) :
    ∀ c ∈ (readListing client sys fRes dest files s).1.1, ∃ f ∈ files, f.Name = c.archive := by
  intro c hc
  unfold readListing at hc
  rcases hg : GetMostRecentZips files (path.Split fRes.archive).2 with ⟨names, _ | err⟩
  · rw [hg] at hc
    rcases processArchives_archives client sys fRes _ dest names [] s c hc with h | h
    · simp at h
    · have hmem : c.archive ∈ (GetMostRecentZips files (path.Split fRes.archive).2).1 := by
        rw [hg]
        exact h
      exact GetMostRecentZips_subset hmem
  · rw [hg] at hc
    simp at hc

/-! ## The pipeline: claims -/

/-- C7: when the remote listing succeeds with entries `files`, `Read` in weekly mode is
`Read`'s resolution-and-extraction run on the entries of `files` whose name contains
"full", in listing order, and in non-weekly mode it is that run on `files` itself; in
weekly mode every archive name of the result contains "full", and a client whose listing
has the same "full" entries gives the same result whatever its other entries are. -/
theorem C7_weekly_mode_resolves_full_entries_only {σ : Type} (client : FactsetClient σ)
    (sys : LocalSystem σ) (fRes : factsetResource) (dest : String) (s s1 : σ)
    (files : List FileInfo)
    (hdir : client.ReadDir (path.Split fRes.archive).1 s = ((files, none), s1)) :
    Read client sys fRes dest true s =
      readListing client sys fRes dest
        (files.filter (fun f => strings.Contains f.Name "full")) s1 ∧
    Read client sys fRes dest false s = readListing client sys fRes dest files s1 ∧
    (∀ c ∈ (Read client sys fRes dest true s).1.1, strings.Contains c.archive "full" = true) ∧
    ∀ (client2 : FactsetClient σ) (files2 : List FileInfo),
      client2.Download = client.Download →
      client2.ReadDir (path.Split fRes.archive).1 s = ((files2, none), s1) →
      files2.filter (fun f => strings.Contains f.Name "full") =
        files.filter (fun f => strings.Contains f.Name "full") →
      Read client2 sys fRes dest true s = Read client sys fRes dest true s := by
  have hweekly : Read client sys fRes dest true s =
      readListing client sys fRes dest
        (files.filter (fun f => strings.Contains f.Name "full")) s1 := by
    simp only [Read, hdir, if_true, onlyWeekly_eq_filter, List.nil_append]
  refine ⟨hweekly, ?_, ?_, ?_⟩
  · simp only [Read, hdir, Bool.false_eq_true, if_false]
  · intro c hc
    rw [hweekly] at hc
    obtain ⟨f, hf, hfn⟩ := readListing_archives client sys fRes dest _ s1 c hc
    rw [← hfn]
    exact (List.mem_filter.1 hf).2
  · intro client2 files2 hD hdir2 hfilter
    rw [hweekly]
    simp only [Read, hdir2, if_true, onlyWeekly_eq_filter, List.nil_append, hfilter]
    exact readListing_congr client client2 sys fRes dest hD _ s1

/-- C7 at a listing with one "full" entry, one entry of a higher version without
"full" and one malformed entry: in weekly mode only the "full" entry is resolved. -/
theorem C7_weekly_mode_resolves_full_entries_only_witness :
    Read (exampleClient [⟨"prices_full_v1_1.zip"⟩, ⟨"prices_v3_1.zip"⟩, ⟨"junk"⟩] "")
        (exampleSystem ["prices_2021.txt"]) ⟨"/feed/prices", "prices_2021.txt"⟩ "out" true ()
      = (([⟨"prices_full_v1_1.zip", ["prices_2021.txt"]⟩], none), ()) ∧
    Read (exampleClient [⟨"prices_full_v1_1.zip"⟩, ⟨"prices_v3_1.zip"⟩, ⟨"junk"⟩] "")
        (exampleSystem ["prices_2021.txt"]) ⟨"/feed/prices", "prices_2021.txt"⟩ "out" true ()
      = readListing (exampleClient [⟨"prices_full_v1_1.zip"⟩, ⟨"prices_v3_1.zip"⟩, ⟨"junk"⟩] "")
        (exampleSystem ["prices_2021.txt"]) ⟨"/feed/prices", "prices_2021.txt"⟩ "out"
        ([(⟨"prices_full_v1_1.zip"⟩ : FileInfo), ⟨"prices_v3_1.zip"⟩, ⟨"junk"⟩].filter
          (fun f => strings.Contains f.Name "full")) () :=
  ⟨by decide,
    (C7_weekly_mode_resolves_full_entries_only
      (exampleClient [⟨"prices_full_v1_1.zip"⟩, ⟨"prices_v3_1.zip"⟩, ⟨"junk"⟩] "")
      (exampleSystem ["prices_2021.txt"]) ⟨"/feed/prices", "prices_2021.txt"⟩ "out" () ()
      [⟨"prices_full_v1_1.zip"⟩, ⟨"prices_v3_1.zip"⟩, ⟨"junk"⟩] rfl).1⟩

/-- C8: `Read` returns no collection and the listing's error when the listing fails, and
no collection and the resolver's error when resolution fails.  When resolution yields
`archives`: if all of them download and extract without error, `Read` returns their
collections, one per archive and in order, and no error; if `ak` is the first one whose
download or extraction fails, `Read` returns the collections of the archives before `ak`,
one per archive and in order, together with the error of `ak`. -/
theorem C8_read_stops_at_first_failing_archive {σ : Type} (client : FactsetClient σ)
    (sys : LocalSystem σ) (fRes : factsetResource) (dest : String) (isWeekly : Bool) (s : σ) :
    (∀ files err s1, client.ReadDir (path.Split fRes.archive).1 s = ((files, some err), s1) →
      Read client sys fRes dest isWeekly s = (([], some err), s1)) ∧
    (∀ files s1, client.ReadDir (path.Split fRes.archive).1 s = ((files, none), s1) →
      (∀ names err,
        GetMostRecentZips
          (if isWeekly = true then files.filter (fun f => strings.Contains f.Name "full")
            else files) (path.Split fRes.archive).2 = (names, some err) →
        Read client sys fRes dest isWeekly s = (([], some err), s1)) ∧
      (∀ archives,
        GetMostRecentZips
          (if isWeekly = true then files.filter (fun f => strings.Contains f.Name "full")
            else files) (path.Split fRes.archive).2 = (archives, none) →
        (∀ cols s2,
          Processed client sys fRes (path.Split fRes.archive).1 dest archives s1 cols s2 →
          Read client sys fRes dest isWeekly s = ((cols, none), s2) ∧
            cols.length = archives.length ∧ cols.map zipCollection.archive = archives) ∧
        (∀ pre ak post cols s2 err s3, archives = pre ++ ak :: post →
          Processed client sys fRes (path.Split fRes.archive).1 dest pre s1 cols s2 →
          FailsAt client sys fRes (path.Split fRes.archive).1 dest ak s2 err s3 →
          Read client sys fRes dest isWeekly s = ((cols, some err), s3) ∧
            cols.length = pre.length ∧ cols.map zipCollection.archive = pre))) := by
  refine ⟨?_, ?_⟩
  · intro files err s1 hdir
    simp only [Read, hdir]
  · intro files s1 hdir
    have hread : Read client sys fRes dest isWeekly s =
        readListing client sys fRes dest
          (if isWeekly = true then files.filter (fun f => strings.Contains f.Name "full")
            else files) s1 := by
      cases isWeekly
      · simp only [Read, hdir, Bool.false_eq_true, if_false]
      · simp only [Read, hdir, if_true, onlyWeekly_eq_filter, List.nil_append]
    refine ⟨?_, ?_⟩
    · intro names err hg
      rw [hread]
      simp only [readListing, hg]
    · intro archives hg
      refine ⟨?_, ?_⟩
      · intro cols s2 hp
        have hrun := processArchives_processed hp [] []
        rw [List.append_nil, List.nil_append] at hrun
        have hshape := processed_shape hp
        refine ⟨?_, ?_, hshape⟩
        · rw [hread]
          simp only [readListing, hg, hrun, processArchives]
        · rw [← hshape, List.length_map]
      · intro pre ak post cols s2 err s3 hsplit hp hfail
        have hrun := processArchives_processed hp (ak :: post) []
        rw [List.nil_append] at hrun
        obtain ⟨fs, hstep⟩ := processArchive_fails hfail
        have hshape := processed_shape hp
        refine ⟨?_, ?_, hshape⟩
        · rw [hread]
          simp only [readListing, hg, hsplit, hrun, processArchives, hstep]
        · rw [← hshape, List.length_map]

/-- C8 at two resolved archives where the download of the second fails: exactly one
collection, that of the first archive, and the download error. -/
theorem C8_read_stops_at_first_failing_archive_witness :
    Read (exampleClient [⟨"prices_full_v1_1.zip"⟩, ⟨"prices_v1_1.zip"⟩] "/feed/prices_v1_1.zip")
        (exampleSystem ["prices_2021.txt", "other.txt"])
        ⟨"/feed/prices", "prices_2021.txt"⟩ "out" false ()
      = (([⟨"prices_full_v1_1.zip", ["prices_2021.txt"]⟩], some "download failed"), ()) ∧
    [(⟨"prices_full_v1_1.zip", ["prices_2021.txt"]⟩ : zipCollection)].length
      = ["prices_full_v1_1.zip"].length ∧
    [(⟨"prices_full_v1_1.zip", ["prices_2021.txt"]⟩ : zipCollection)].map zipCollection.archive
      = ["prices_full_v1_1.zip"] :=
  (((C8_read_stops_at_first_failing_archive
      (exampleClient [⟨"prices_full_v1_1.zip"⟩, ⟨"prices_v1_1.zip"⟩] "/feed/prices_v1_1.zip")
      (exampleSystem ["prices_2021.txt", "other.txt"])
      ⟨"/feed/prices", "prices_2021.txt"⟩ "out" false ()).2
        [⟨"prices_full_v1_1.zip"⟩, ⟨"prices_v1_1.zip"⟩] () rfl).2
        ["prices_full_v1_1.zip", "prices_v1_1.zip"] (by decide)).2
    ["prices_full_v1_1.zip"] "prices_v1_1.zip" []
    [⟨"prices_full_v1_1.zip", ["prices_2021.txt"]⟩] () "download failed" () rfl
    (Processed.next
      (show download
          (exampleClient [⟨"prices_full_v1_1.zip"⟩, ⟨"prices_v1_1.zip"⟩] "/feed/prices_v1_1.zip")
          "/feed/" "prices_full_v1_1.zip" "out" () = (none, ()) from by decide)
      (show unzip (exampleSystem ["prices_2021.txt", "other.txt"]) "prices_full_v1_1.zip"
          (strings.Split "prices_2021.txt" ";") "out" () = ((["prices_2021.txt"], none), ())
        from by decide)
      (Processed.done ()))
    (Or.inl (by decide))

/-! ## The writer: claims -/

/-- C9: `getS3ResFilePath` is the empty text for an empty archive name, whatever the file
name; for a non-empty archive name it is `Weekly/<today>/<file name>` when the archive
name contains "full" and `Daily/<today>/<file name>` when it does not. -/
theorem C9_destination_suffix (today s3FileName archive : String) :
    (archive = "" → getS3ResFilePath today s3FileName archive = "") ∧
    (archive ≠ "" → strings.Contains archive "full" = true →
      getS3ResFilePath today s3FileName archive = "Weekly/" ++ today ++ "/" ++ s3FileName) ∧
    (archive ≠ "" → strings.Contains archive "full" = false →
      getS3ResFilePath today s3FileName archive = "Daily/" ++ today ++ "/" ++ s3FileName) := by
  refine ⟨?_, ?_, ?_⟩
  · intro h
    simp [getS3ResFilePath, h]
  · intro h1 h2
    simp [getS3ResFilePath, h1, h2]
  · intro h1 h2
    simp [getS3ResFilePath, h1, h2]

/-- C9 at an empty archive name, a weekly archive and a daily archive. -/
theorem C9_destination_suffix_witness :
    getS3ResFilePath "2021-03-04" "prices_2021.txt" "" = "" ∧
    getS3ResFilePath "2021-03-04" "prices_2021.txt" "prices_full_v2_3.zip"
      = "Weekly/2021-03-04/prices_2021.txt" ∧
    getS3ResFilePath "2021-03-04" "prices_2021.txt" "prices_v2_3.zip"
      = "Daily/2021-03-04/prices_2021.txt" :=
  ⟨(C9_destination_suffix "2021-03-04" "prices_2021.txt" "").1 rfl,
    (C9_destination_suffix "2021-03-04" "prices_2021.txt" "prices_full_v2_3.zip").2.1
      (by decide) (by decide),
    (C9_destination_suffix "2021-03-04" "prices_2021.txt" "prices_v2_3.zip").2.2
      (by decide) (by decide)⟩

/-! ## Lemmas on paths -/

theorem splitSlash_ne_nil (p : List Char) : splitSlash p ≠ [] := by
  cases p with
  | nil => simp [splitSlash]
  | cons c rest =>
    rw [splitSlash]
    split
    · simp
    · split <;> simp

theorem splitSlash_append (a b : List Char) :
    splitSlash (a ++ '/' :: b) = splitSlash a ++ splitSlash b := by
  induction a with
  | nil => simp [splitSlash]
  | cons c a ih =>
    rw [List.cons_append, splitSlash, splitSlash, ih]
    by_cases hc : c = '/'
    · simp [hc]
    · simp only [hc, if_false]
      rcases hsa : splitSlash a with _ | ⟨e, es⟩
      · exact absurd hsa (splitSlash_ne_nil a)
      · simp

theorem joinSlash_cons_cons (c : Char) (e : List Char) (es : List (List Char)) :
    joinSlash ((c :: e) :: es) = c :: joinSlash (e :: es) := by
  cases es <;> simp [joinSlash]

theorem joinSlash_splitSlash (p : List Char) : joinSlash (splitSlash p) = p := by
  induction p with
  | nil => simp [splitSlash, joinSlash]
  | cons c rest ih =>
    rw [splitSlash]
    rcases hsr : splitSlash rest with _ | ⟨e, es⟩
    · exact absurd hsr (splitSlash_ne_nil rest)
    · rw [hsr] at ih
      by_cases hc : c = '/'
      · simp [hc, joinSlash, ih]
      · simp only [hc, if_false]
        rw [joinSlash_cons_cons, ih]

theorem joinSlash_append (xs ys : List (List Char)) (hx : xs ≠ []) (hy : ys ≠ []) :
    joinSlash (xs ++ ys) = joinSlash xs ++ '/' :: joinSlash ys := by
  induction xs with
  | nil => exact absurd rfl hx
  | cons x xs ih =>
    cases xs with
    | nil =>
      cases ys with
      | nil => exact absurd rfl hy
      | cons y ys => simp [joinSlash]
    | cons x2 xs =>
      have := ih (by simp)
      simp only [List.cons_append] at this ⊢
      simp [joinSlash, this]

theorem foldl_cleanStep_plain (rooted : Bool) (es : List (List Char))
    (h : ∀ e ∈ es, e ≠ [] ∧ e ≠ ['.'] ∧ e ≠ ['.', '.']) :
    ∀ stack, es.foldl (cleanStep rooted) stack = es.reverse ++ stack := by
  induction es with
  | nil => intro stack; rfl
  | cons e es ih =>
    intro stack
    obtain ⟨h1, h2, h3⟩ := h e (List.mem_cons_self _ _)
    rw [List.foldl_cons, ih (fun x hx => h x (List.mem_cons_of_mem _ hx))]
    simp [cleanStep, h1, h2, h3]

/-- Cleaning `d/m` when every path element of `m` is a proper name: the cleaned
directory part followed by `m` unchanged. -/
theorem cleanChars_append_plain (d m : List Char)
    (h : ∀ e ∈ splitSlash m, e ≠ [] ∧ e ≠ ['.'] ∧ e ≠ ['.', '.']) :
    cleanChars (d ++ '/' :: m) = cleanedRoot d ++ m := by
  have hrooted : ((d ++ '/' :: m).head? = some '/') ↔ (d = [] ∨ d.head? = some '/') := by
    cases d <;> simp
  have hne : d ++ '/' :: m ≠ [] := by simp
  simp only [cleanChars, hne, if_false, cleanedRoot, splitSlash_append, List.foldl_append,
    foldl_cleanStep_plain _ _ h, List.reverse_append, List.reverse_reverse, hrooted]
  have hsm : splitSlash m ≠ [] := splitSlash_ne_nil m
  have hkept : splitSlash m ++
      (List.foldl (cleanStep (decide (d = [] ∨ d.head? = some '/'))) [] (splitSlash d)).reverse
        ≠ [] := by simp [hsm]
  generalize List.foldl (cleanStep (decide (d = [] ∨ d.head? = some '/'))) [] (splitSlash d)
    = stack at hkept ⊢
  have hjoin : joinSlash (stack.reverse ++ splitSlash m) =
      (if stack = [] then [] else joinSlash stack.reverse ++ ['/']) ++ m := by
    by_cases hst : stack = []
    · simp [hst, joinSlash_splitSlash]
    · rw [joinSlash_append _ _ (by simpa using hst) hsm, joinSlash_splitSlash]
      simp [hst]
  by_cases hr : d = [] ∨ d.head? = some '/'
  · simp [hr, hjoin]
  · simp [hr, hjoin, hsm]

theorem plain_cadence_member (cadence fName : String)
    (hc : splitSlash cadence.toList = [cadence.toList])
    (hc2 : cadence.toList ≠ [] ∧ cadence.toList ≠ ['.'] ∧ cadence.toList ≠ ['.', '.'])
    (hplain : PlainName fName) :
    ∀ e ∈ splitSlash (cadence.toList ++ '/' :: fName.toList),
      e ≠ [] ∧ e ≠ ['.'] ∧ e ≠ ['.', '.'] := by
  intro e he
  rw [splitSlash_append, hc] at he
  rcases List.mem_append.1 he with he | he
  · simp only [List.mem_singleton] at he
    rw [he]
    exact hc2
  · exact hplain e he

theorem path_Join_dir (dest cadence fName : String) :
    path.Join [dest ++ "/" ++ cadence, fName] =
      String.mk (cleanChars (dest.toList ++ '/' :: (cadence.toList ++ '/' :: fName.toList))) := by
  have hd : ¬ (dest ++ "/" ++ cadence = "") := by
    intro h
    have := congrArg String.toList h
    simp at this
  simp [path.Join, List.dropWhile, hd, joinSlash, path.Clean]

theorem path_Clean_dir (dest cadence : String)
    (hc : splitSlash cadence.toList = [cadence.toList])
    (hc2 : cadence.toList ≠ [] ∧ cadence.toList ≠ ['.'] ∧ cadence.toList ≠ ['.', '.']) :
    path.Clean (dest ++ "/" ++ cadence) = String.mk (cleanedRoot dest.toList ++ cadence.toList) := by
  have h := cleanChars_append_plain dest.toList cadence.toList (by
    intro e he
    rw [hc] at he
    simp only [List.mem_singleton] at he
    rw [he]
    exact hc2)
  simp only [path.Clean]
  rw [← h]
  simp

theorem extractPath_plain (archive dest fName : String) (hplain : PlainName fName) :
    extractPath archive dest fName =
      String.mk (cleanedRoot dest.toList ++
        ((if strings.Contains archive "full" then weekly else daily).toList ++
          '/' :: fName.toList)) := by
  unfold extractPath cadenceDir
  cases strings.Contains archive "full"
  · simp only [Bool.false_eq_true, if_false]
    rw [path_Join_dir, cleanChars_append_plain _ _
      (plain_cadence_member daily fName (by decide) (by decide) hplain)]
  · simp only [if_true]
    rw [path_Join_dir, cleanChars_append_plain _ _
      (plain_cadence_member weekly fName (by decide) (by decide) hplain)]

/-- The paths created by `unzip` in the recording system are `extractPath`s of members. -/
theorem unzipFactsetFiles_recording (members : List String) (archive dest fName : String)
    (factsetFiles : List String) : ∀ (acc created : List String),
    ∃ acc1 more,
      unzipFactsetFiles (recordingSystem members) archive dest fName factsetFiles acc created
        = ((acc1, none), created ++ more) ∧
      ∀ p ∈ more, p = extractPath archive dest fName := by
  induction factsetFiles with
  | nil => intro acc created; exact ⟨acc, [], by simp [unzipFactsetFiles], by simp⟩
  | cons factsetFile rest ih =>
    intro acc created
    rw [unzipFactsetFiles]
    by_cases hc : strings.Contains fName (strings.TrimSuffix factsetFile ".txt") = true
    · simp only [hc, Bool.not_true, Bool.false_eq_true, if_false, recordingSystem]
      obtain ⟨acc1, more, hrun, hmore⟩ := ih
        (acc ++ [strings.TrimPrefix (extractPath archive dest fName)
          (cadenceDir archive dest ++ "/")])
        (created ++ [extractPath archive dest fName])
      refine ⟨acc1, extractPath archive dest fName :: more, ?_, ?_⟩
      · simp only [recordingSystem] at hrun
        rw [hrun]
        simp
      · intro p hp
        rcases List.mem_cons.1 hp with rfl | hp
        · rfl
        · exact hmore p hp
    · simp only [Bool.not_eq_true] at hc
      simp only [hc, Bool.not_false, if_true]
      exact ih acc created

theorem unzipMembers_recording (members : List String) (archive dest : String)
    (factsetFiles : List String) (fs : List String) : ∀ (acc created : List String),
    ∃ acc1 more,
      unzipMembers (recordingSystem members) archive dest factsetFiles fs acc created
        = ((acc1, none), created ++ more) ∧
      ∀ p ∈ more, ∃ m ∈ fs, p = extractPath archive dest m := by
  induction fs with
  | nil => intro acc created; exact ⟨acc, [], by simp [unzipMembers], by simp⟩
  | cons fName rest ih =>
    intro acc created
    obtain ⟨acc1, more1, hrun1, hmore1⟩ :=
      unzipFactsetFiles_recording members archive dest fName factsetFiles acc created
    obtain ⟨acc2, more2, hrun2, hmore2⟩ := ih acc1 (created ++ more1)
    refine ⟨acc2, more1 ++ more2, ?_, ?_⟩
    · rw [unzipMembers, hrun1]
      simp only []
      rw [hrun2, List.append_assoc]
    · intro p hp
      rcases List.mem_append.1 hp with hp | hp
      · exact ⟨fName, List.mem_cons_self _ _, hmore1 p hp⟩
      · obtain ⟨m, hm, hpm⟩ := hmore2 p hp
        exact ⟨m, List.mem_cons_of_mem _ hm, hpm⟩

theorem unzip_recording (members : List String) (archive dest : String)
    (factsetFiles : List String) :
    ∀ p ∈ (unzip (recordingSystem members) archive factsetFiles dest []).2,
      ∃ m ∈ members, p = extractPath archive dest m := by
  obtain ⟨acc1, more, hrun, hmore⟩ :=
    unzipMembers_recording members archive dest factsetFiles members [] []
  intro p hp
  have hu : (unzip (recordingSystem members) archive factsetFiles dest []).2 = more := by
    have hopen : (recordingSystem members).zipOpenReader (path.Join [dest, archive]) []
        = ((members, none), []) := rfl
    simp only [unzip, hopen, hrun]
    simp [recordingSystem]
  rw [hu] at hp
  exact hmore p hp

theorem isUnder_cadence (dest cadence cadence2 fName : String)
    (hc : splitSlash cadence.toList = [cadence.toList])
    (hc2 : cadence.toList ≠ [] ∧ cadence.toList ≠ ['.'] ∧ cadence.toList ≠ ['.', '.']) :
    isUnder (dest ++ "/" ++ cadence)
        (String.mk (cleanedRoot dest.toList ++ (cadence2.toList ++ '/' :: fName.toList))) = true ↔
      cadence.toList ++ ['/'] <+: cadence2.toList ++ '/' :: fName.toList := by
  unfold isUnder
  rw [path_Clean_dir dest cadence hc hc2, List.isPrefixOf_iff_prefix]
  simp only [String.toList, List.append_assoc]
  exact List.prefix_append_right_inj _

/-! ## Extraction: claims -/

/-- C10 as stated fails: the archive `prices_full_v2_3.zip` contains "full", its member
`../daily/prices_2021.txt` matches the requested name `prices_2021.txt`, and the path
`unzip` creates for it, `out/daily/prices_2021.txt`, is under the daily sub-directory of
`out` and not under the weekly one. -/
theorem C10_counterexample_member_leaves_weekly_directory :
    strings.Contains "prices_full_v2_3.zip" "full" = true ∧
    strings.Contains "../daily/prices_2021.txt"
      (strings.TrimSuffix "prices_2021.txt" ".txt") = true ∧
    extractPath "prices_full_v2_3.zip" "out" "../daily/prices_2021.txt"
      = "out/daily/prices_2021.txt" ∧
    isUnder ("out" ++ "/" ++ weekly)
      (extractPath "prices_full_v2_3.zip" "out" "../daily/prices_2021.txt") = false ∧
    isUnder ("out" ++ "/" ++ daily)
      (extractPath "prices_full_v2_3.zip" "out" "../daily/prices_2021.txt") = true ∧
    (unzip (recordingSystem ["../daily/prices_2021.txt"]) "prices_full_v2_3.zip"
      ["prices_2021.txt"] "out" []).2 = ["out/daily/prices_2021.txt"] := by
  decide

/-! ## Further lemmas on the version patterns and the conversion -/

theorem takeWhile_digits_append (ds b : List Char) (hall : ∀ c ∈ ds, c.isDigit = true)
    (hb : ∀ c rest, b = c :: rest → c.isDigit = false) :
    (ds ++ b).takeWhile Char.isDigit = ds := by
  induction ds with
  | nil =>
    cases b with
    | nil => rfl
    | cons c rest => simp [List.takeWhile, hb c rest rfl]
  | cons d ds ih =>
    have hd : d.isDigit = true := hall d (List.mem_cons_self _ _)
    rw [List.cons_append, List.takeWhile_cons, if_pos hd,
      ih (fun c hc => hall c (List.mem_cons_of_mem _ hc))]

theorem findMajorSubmatch_leftmost {s : List Char} {m : List (List Char)}
    (h : findMajorSubmatch s = some m) :
    ∃ a ds b, s = a ++ 'v' :: ds ++ b ∧ m = ['v' :: ds] ∧ ds ≠ [] ∧
      (∀ c ∈ ds, c.isDigit = true) ∧ NoMajorMarkerIn a ∧
      (∀ c rest, b = c :: rest → c.isDigit = false) := by
  induction s with
  | nil => simp [findMajorSubmatch] at h
  | cons c rest ih =>
    unfold findMajorSubmatch at h
    split at h
    · rename_i hc
      obtain ⟨hcv, hne⟩ := hc
      subst hcv
      refine ⟨[], rest.takeWhile Char.isDigit, rest.dropWhile Char.isDigit, ?_, ?_, hne, ?_, ?_, ?_⟩
      · simp [List.takeWhile_append_dropWhile]
      · simpa using h.symm
      · intro x hx
        exact List.mem_takeWhile_imp hx
      · rintro ⟨a1, d, a2, ha, -⟩
        simp at ha
      · intro x xs hb
        have hhead := List.head_dropWhile_not Char.isDigit rest (by rw [hb]; simp)
        simp only [hb, List.head_cons] at hhead
        simpa using hhead
    · rename_i hc
      obtain ⟨a, ds, b, hs, hm, hne, hall, hno, hb⟩ := ih h
      refine ⟨c :: a, ds, b, by simp [hs], hm, hne, hall, ?_, hb⟩
      rintro ⟨a1, d, a2, ha, hd⟩
      cases a1 with
      | nil =>
        simp only [List.nil_append, List.cons.injEq] at ha
        apply hc
        refine ⟨ha.1, ?_⟩
        rw [hs, ha.2]
        simp [List.takeWhile, hd]
      | cons x a1 =>
        simp only [List.cons_append, List.cons.injEq] at ha
        exact hno ⟨a1, d, a2, ha.2, hd⟩

theorem findMajorSubmatch_of_leftmost (a ds b : List Char) (hno : NoMajorMarkerIn a)
    (hne : ds ≠ []) (hall : ∀ c ∈ ds, c.isDigit = true)
    (hb : ∀ c rest, b = c :: rest → c.isDigit = false) :
    findMajorSubmatch (a ++ 'v' :: ds ++ b) = some ['v' :: ds] := by
  induction a with
  | nil =>
    have htw := takeWhile_digits_append ds b hall hb
    have hshape : [] ++ 'v' :: ds ++ b = 'v' :: (ds ++ b) := by simp
    rw [hshape, findMajorSubmatch, if_pos ⟨rfl, by rw [htw]; exact hne⟩, htw]
  | cons c a ih =>
    have hno2 : NoMajorMarkerIn a := by
      rintro ⟨a1, d, a2, ha, hd⟩
      exact hno ⟨c :: a1, d, a2, by simp [ha], hd⟩
    have hcond : ¬ (c = 'v' ∧ (a ++ 'v' :: ds ++ b).takeWhile Char.isDigit ≠ []) := by
      rintro ⟨hc, htw⟩
      cases a with
      | nil =>
        apply htw
        simp only [List.nil_append, List.cons_append, List.takeWhile]
        have : Char.isDigit 'v' = false := by decide
        simp [this]
      | cons d a2 =>
        by_cases hd : d.isDigit = true
        · exact hno ⟨[], d, a2, by simp [hc], hd⟩
        · apply htw
          simp [List.takeWhile, hd]
    rw [List.cons_append, List.cons_append, findMajorSubmatch, if_neg hcond]
    exact ih hno2

theorem findMinorSubmatch_of_suffix (a ds : List Char) (hne : ds ≠ [])
    (hall : ∀ c ∈ ds, c.isDigit = true) :
    findMinorSubmatch (a ++ '_' :: ds) = some ['_' :: ds] := by
  induction a with
  | nil =>
    simp only [List.nil_append, findMinorSubmatch]
    have : ds.all Char.isDigit = true := by simpa using hall
    simp [hne, this]
  | cons c a ih =>
    have hcond : ¬ (c = '_' ∧ a ++ '_' :: ds ≠ [] ∧ (a ++ '_' :: ds).all Char.isDigit = true) := by
      rintro ⟨-, -, hd⟩
      simp only [List.all_eq_true] at hd
      have := hd '_' (by simp)
      revert this
      decide
    rw [List.cons_append, findMinorSubmatch, if_neg hcond]
    exact ih

theorem atoi_digits_error (ds : List Char) (hne : ds ≠ []) (hall : ds.all Char.isDigit = true) :
    (strconv.Atoi (String.mk ds)).2 = none ↔ decimalValue ds ≤ maxInt := by
  cases ds with
  | nil => exact absurd rfl hne
  | cons c t =>
    have hc : c.isDigit = true := by
      simp only [List.all_cons, Bool.and_eq_true] at hall
      exact hall.1
    have h1 : c ≠ '-' := by rintro rfl; revert hc; decide
    have h2 : c ≠ '+' := by rintro rfl; revert hc; decide
    simp only [strconv.Atoi, String.toList, h1, h2, if_false, hall, not_true_eq_false,
      or_false, reduceCtorEq]
    by_cases hv : decimalValue (c :: t) ≤ maxInt
    · simp [hv]
    · simp [hv]

theorem majorDigitRun_of_match {name : String} {ds : List Char}
    (h : findMajorSubmatch (strings.TrimSuffix name ".zip").toList = some ['v' :: ds]) :
    majorDigitRun name = ds := by
  simp only [majorDigitRun, h, List.drop_succ_cons, List.drop_zero]

theorem minorDigitRun_of_match {name : String} {ds : List Char}
    (h : findMinorSubmatch (strings.TrimSuffix name ".zip").toList = some ['_' :: ds]) :
    minorDigitRun name = ds := by
  simp only [minorDigitRun, h, List.drop_succ_cons, List.drop_zero]

/-- When the major pattern matches, the matched digit run is non-empty, made of digits,
preceded by the leftmost `v` that has a digit after it, and not followed by a digit. -/
theorem majorDigitRun_spec {name : String} (h : HasMajorMarker name) :
    ∃ a b, (strings.TrimSuffix name ".zip").toList = a ++ 'v' :: majorDigitRun name ++ b ∧
      findMajorSubmatch (strings.TrimSuffix name ".zip").toList
        = some ['v' :: majorDigitRun name] ∧
      majorDigitRun name ≠ [] ∧ (∀ c ∈ majorDigitRun name, c.isDigit = true) ∧
      NoMajorMarkerIn a ∧ (∀ c rest, b = c :: rest → c.isDigit = false) := by
  rcases hm : findMajorSubmatch (strings.TrimSuffix name ".zip").toList with _ | m
  · exact absurd h ((findMajorSubmatch_eq_none_iff _).1 hm)
  · obtain ⟨a, ds, b, hs, hmm, hne, hall, hno, hb⟩ := findMajorSubmatch_leftmost hm
    subst hmm
    rw [majorDigitRun_of_match hm]
    exact ⟨a, b, hs, rfl, hne, hall, hno, hb⟩

/-- When the minor pattern matches, the matched digit run is non-empty, made of digits,
and is all that follows an underscore up to the end of the trimmed name. -/
theorem minorDigitRun_spec {name : String} (h : HasMinorMarker name) :
    ∃ a, (strings.TrimSuffix name ".zip").toList = a ++ '_' :: minorDigitRun name ∧
      findMinorSubmatch (strings.TrimSuffix name ".zip").toList
        = some ['_' :: minorDigitRun name] ∧
      minorDigitRun name ≠ [] ∧ (∀ c ∈ minorDigitRun name, c.isDigit = true) := by
  rcases hm : findMinorSubmatch (strings.TrimSuffix name ".zip").toList with _ | m
  · exact absurd h ((findMinorSubmatch_eq_none_iff _).1 hm)
  · obtain ⟨a, ds, hs, hmm, hne, hall⟩ := findMinorSubmatch_eq_some hm
    subst hmm
    rw [minorDigitRun_of_match hm]
    exact ⟨a, hs, rfl, hne, by simpa using hall⟩

/-! ## Remaining claims on the resolver and the parser -/

/-- C12: in the listing `prices_v1_1.zip, rates_v2_3.zip` every name is well formed and
`prices_v1_1.zip` contains the search term `prices`, yet `GetMostRecentZips` fails with the
no-matching-archive error: the resolved pair `(2, 3)` comes from `rates_v2_3.zip`, which
does not contain the search term. -/
theorem C12_unrelated_higher_version_blocks_resolution :
    (∀ f ∈ [(⟨"prices_v1_1.zip"⟩ : FileInfo), ⟨"rates_v2_3.zip"⟩], WellFormed f.Name) ∧
    (∃ f ∈ [(⟨"prices_v1_1.zip"⟩ : FileInfo), ⟨"rates_v2_3.zip"⟩],
      strings.Contains f.Name "prices" = true) ∧
    scanVersions [⟨"prices_v1_1.zip"⟩, ⟨"rates_v2_3.zip"⟩] ⟨"", 0, 0⟩
      = (⟨"rates_v2_3.zip", 2, 3⟩, none) ∧
    strings.Contains "rates_v2_3.zip" "prices" = false ∧
    parsedPair "prices_v1_1.zip" = (1, 1) ∧
    GetMostRecentZips [⟨"prices_v1_1.zip"⟩, ⟨"rates_v2_3.zip"⟩] "prices" =
      ([], some
        "Found no matching files with name: prices, major version: 2, or minor version: 3") := by
  decide

/-- C13 as stated fails: in `prices_v99999999999999999999_1.zip` the major pattern matches
the run of twenty nines, whose conversion reports a range error, and `getMajorVersion`
returns `9223372036854775807` instead of the decimal value of the run. -/
theorem C13_counterexample_long_digit_run_is_clamped :
    majorDigitRun "prices_v99999999999999999999_1.zip" = "99999999999999999999".toList ∧
    decimalValue (majorDigitRun "prices_v99999999999999999999_1.zip")
      = 99999999999999999999 ∧
    (strconv.Atoi "99999999999999999999").2 ≠ none ∧
    getMajorVersion "prices_v99999999999999999999_1.zip" = (9223372036854775807, none) := by
  decide

/-- C13 amended: on a name where the major (respectively minor) pattern matches, the
conversion of the matched digit run succeeds exactly when the decimal value of the run is
at most `2^63 - 1`; `getMajorVersion` (respectively `getMinorVersion`) returns without error
the smaller of that value and `2^63 - 1`, hence exactly the decimal value of the run
whenever it is at most `2^63 - 1`. -/
theorem C13_conversion_is_exact_within_int_range (name : String) :
    (HasMajorMarker name →
      majorDigitRun name ≠ [] ∧ (∀ c ∈ majorDigitRun name, c.isDigit = true) ∧
      ((strconv.Atoi (String.mk (majorDigitRun name))).2 = none ↔
        decimalValue (majorDigitRun name) ≤ 2 ^ 63 - 1) ∧
      getMajorVersion name =
        (((min (decimalValue (majorDigitRun name)) (2 ^ 63 - 1) : Nat) : Int), none) ∧
      (decimalValue (majorDigitRun name) ≤ 2 ^ 63 - 1 →
        getMajorVersion name = (((decimalValue (majorDigitRun name) : Nat) : Int), none))) ∧
    (HasMinorMarker name →
      minorDigitRun name ≠ [] ∧ (∀ c ∈ minorDigitRun name, c.isDigit = true) ∧
      ((strconv.Atoi (String.mk (minorDigitRun name))).2 = none ↔
        decimalValue (minorDigitRun name) ≤ 2 ^ 63 - 1) ∧
      getMinorVersion name =
        (((min (decimalValue (minorDigitRun name)) (2 ^ 63 - 1) : Nat) : Int), none) ∧
      (decimalValue (minorDigitRun name) ≤ 2 ^ 63 - 1 →
        getMinorVersion name = (((decimalValue (minorDigitRun name) : Nat) : Int), none))) := by
  constructor
  · intro h
    obtain ⟨a, b, -, hm, hne, hall, -, -⟩ := majorDigitRun_spec h
    have hall2 : (majorDigitRun name).all Char.isDigit = true := by simpa using hall
    have hget := getMajorVersion_of_match hm hne hall2
    refine ⟨hne, hall, atoi_digits_error _ hne hall2, hget, ?_⟩
    intro hfit
    have hfit2 : decimalValue (majorDigitRun name) ≤ maxInt := hfit
    rw [hget, Nat.min_eq_left hfit2]
  · intro h
    obtain ⟨a, -, hm, hne, hall⟩ := minorDigitRun_spec h
    have hall2 : (minorDigitRun name).all Char.isDigit = true := by simpa using hall
    have hget := getMinorVersion_of_match hm hne hall2
    refine ⟨hne, hall, atoi_digits_error _ hne hall2, hget, ?_⟩
    intro hfit
    have hfit2 : decimalValue (minorDigitRun name) ≤ maxInt := hfit
    rw [hget, Nat.min_eq_left hfit2]

/-- C13 amended, at `prices_v2_3.zip`: the runs `2` and `3` convert without error and
are returned exactly. -/
theorem C13_conversion_is_exact_within_int_range_witness :
    (getMajorVersion "prices_v2_3.zip" = (2, none) ∧
      getMinorVersion "prices_v2_3.zip" = (3, none)) ∧
    (majorDigitRun "prices_v2_3.zip" ≠ [] ∧
      (∀ c ∈ majorDigitRun "prices_v2_3.zip", c.isDigit = true) ∧
      ((strconv.Atoi (String.mk (majorDigitRun "prices_v2_3.zip"))).2 = none ↔
        decimalValue (majorDigitRun "prices_v2_3.zip") ≤ 2 ^ 63 - 1) ∧
      getMajorVersion "prices_v2_3.zip" =
        (((min (decimalValue (majorDigitRun "prices_v2_3.zip")) (2 ^ 63 - 1) : Nat) : Int),
          none) ∧
      (decimalValue (majorDigitRun "prices_v2_3.zip") ≤ 2 ^ 63 - 1 →
        getMajorVersion "prices_v2_3.zip" =
          (((decimalValue (majorDigitRun "prices_v2_3.zip") : Nat) : Int), none))) :=
  ⟨⟨by decide, by decide⟩,
    (C13_conversion_is_exact_within_int_range "prices_v2_3.zip").1
      ⟨"prices_".toList, '2', "_3".toList, by decide, by decide⟩⟩

/-- C14 as stated fails: `prices_v1_99999999999999999999.zip` ends, once `.zip` is removed,
with an underscore followed by twenty nines; `getMinorVersion` succeeds on it but returns
`9223372036854775807`, not the decimal value of those digits. -/
theorem C14_counterexample_long_minor_run_is_clamped :
    (strings.TrimSuffix "prices_v1_99999999999999999999.zip" ".zip").toList
      = "prices_v1".toList ++ '_' :: "99999999999999999999".toList ∧
    decimalValue "99999999999999999999".toList = 99999999999999999999 ∧
    getMinorVersion "prices_v1_99999999999999999999.zip" = (9223372036854775807, none) := by
  decide

/-- C14 amended: `getMinorVersion` succeeds exactly when the name, with one trailing `.zip`
removed, ends with an underscore followed by one or more digits and nothing else, and fails
with the missing-minor-version error otherwise; on success the digits are those after the
last underscore and the result is their decimal value when it is at most `2^63 - 1`, and
`2^63 - 1` when it is larger. -/
theorem C14_minor_version_of_trailing_digits (name : String) :
    ((getMinorVersion name).2 = none ↔ HasMinorMarker name) ∧
    (¬ HasMinorMarker name →
      getMinorVersion name =
        (-1, some "The minor version is missing or not correctly specified!")) ∧
    ∀ a ds, (strings.TrimSuffix name ".zip").toList = a ++ '_' :: ds → ds ≠ [] →
      (∀ c ∈ ds, c.isDigit = true) →
      '_' ∉ ds ∧
      getMinorVersion name = (((min (decimalValue ds) (2 ^ 63 - 1) : Nat) : Int), none) ∧
      (decimalValue ds ≤ 2 ^ 63 - 1 →
        getMinorVersion name = (((decimalValue ds : Nat) : Int), none)) := by
  refine ⟨?_, ?_, ?_⟩
  · rcases getMinorVersion_cases name with ⟨h, e⟩ | ⟨h, v, e⟩
    · rw [e]; simp [h]
    · rw [e]; simp [h]
  · intro h
    rcases getMinorVersion_cases name with ⟨-, e⟩ | ⟨h2, -, -⟩
    · exact e
    · exact absurd h2 h
  · intro a ds hs hne hall
    have hm : findMinorSubmatch (strings.TrimSuffix name ".zip").toList = some ['_' :: ds] := by
      rw [hs]
      exact findMinorSubmatch_of_suffix a ds hne hall
    have hall2 : ds.all Char.isDigit = true := by simpa using hall
    have hget := getMinorVersion_of_match hm hne hall2
    refine ⟨?_, hget, ?_⟩
    · intro hmem
      have := hall '_' hmem
      revert this
      decide
    · intro hfit
      have hfit2 : decimalValue ds ≤ maxInt := hfit
      rw [hget, Nat.min_eq_left hfit2]

/-- C14 amended, at `prices_v2_3.zip`: the digits after the last underscore are `3`. -/
theorem C14_minor_version_of_trailing_digits_witness :
    getMinorVersion "prices_v2_3.zip" = (3, none) ∧
    ('_' ∉ "3".toList ∧
      getMinorVersion "prices_v2_3.zip" =
        (((min (decimalValue "3".toList) (2 ^ 63 - 1) : Nat) : Int), none) ∧
      (decimalValue "3".toList ≤ 2 ^ 63 - 1 →
        getMinorVersion "prices_v2_3.zip" = (((decimalValue "3".toList : Nat) : Int), none))) :=
  ⟨by decide,
    (C14_minor_version_of_trailing_digits "prices_v2_3.zip").2.2
      "prices_v2".toList "3".toList (by decide) (by decide) (by decide)⟩

/-- C15 as stated fails: in `dev12345678901234567890_v2_3.zip` the leftmost `v` followed by
a digit is the one of `dev`, the digit run after it has the value `12345678901234567890`,
and `getMajorVersion` succeeds but returns `9223372036854775807`. -/
theorem C15_counterexample_long_major_run_is_clamped :
    (strings.TrimSuffix "dev12345678901234567890_v2_3.zip" ".zip").toList
      = "de".toList ++ 'v' :: "12345678901234567890".toList ++ "_v2_3".toList ∧
    decimalValue "12345678901234567890".toList = 12345678901234567890 ∧
    getMajorVersion "dev12345678901234567890_v2_3.zip" = (9223372036854775807, none) := by
  decide

/-- C15 amended: `getMajorVersion` succeeds exactly when the name, with one trailing `.zip`
removed, contains a `v` immediately followed by a digit, and fails with the
missing-major-version error otherwise; on success the digits read are the maximal digit run
after the leftmost such `v`, and the result is their decimal value when it is at most
`2^63 - 1`, and `2^63 - 1` when it is larger. -/
theorem C15_major_version_of_leftmost_marker (name : String) :
    ((getMajorVersion name).2 = none ↔ HasMajorMarker name) ∧
    (¬ HasMajorMarker name →
      getMajorVersion name =
        (-1, some "The major version is missing or not correctly specified!")) ∧
    (HasMajorMarker name →
      ∃ a ds b, (strings.TrimSuffix name ".zip").toList = a ++ 'v' :: ds ++ b ∧
        NoMajorMarkerIn a ∧ ds ≠ [] ∧ (∀ c ∈ ds, c.isDigit = true) ∧
        (∀ c rest, b = c :: rest → c.isDigit = false)) ∧
    ∀ a ds b, (strings.TrimSuffix name ".zip").toList = a ++ 'v' :: ds ++ b →
      NoMajorMarkerIn a → ds ≠ [] → (∀ c ∈ ds, c.isDigit = true) →
      (∀ c rest, b = c :: rest → c.isDigit = false) →
      getMajorVersion name = (((min (decimalValue ds) (2 ^ 63 - 1) : Nat) : Int), none) ∧
      (decimalValue ds ≤ 2 ^ 63 - 1 →
        getMajorVersion name = (((decimalValue ds : Nat) : Int), none)) := by
  refine ⟨?_, ?_, ?_, ?_⟩
  · rcases getMajorVersion_cases name with ⟨h, e⟩ | ⟨h, v, e⟩
    · rw [e]; simp [h]
    · rw [e]; simp [h]
  · intro h
    rcases getMajorVersion_cases name with ⟨-, e⟩ | ⟨h2, -, -⟩
    · exact e
    · exact absurd h2 h
  · intro h
    obtain ⟨a, b, hs, -, hne, hall, hno, hb⟩ := majorDigitRun_spec h
    exact ⟨a, majorDigitRun name, b, hs, hno, hne, hall, hb⟩
  · intro a ds b hs hno hne hall hb
    have hm : findMajorSubmatch (strings.TrimSuffix name ".zip").toList = some ['v' :: ds] := by
      rw [hs]
      exact findMajorSubmatch_of_leftmost a ds b hno hne hall hb
    have hall2 : ds.all Char.isDigit = true := by simpa using hall
    have hget := getMajorVersion_of_match hm hne hall2
    refine ⟨hget, ?_⟩
    intro hfit
    have hfit2 : decimalValue ds ≤ maxInt := hfit
    rw [hget, Nat.min_eq_left hfit2]

/-- C15 amended, at `dev1_v2_3.zip`: the leftmost `v` followed by a digit is the one of
`dev1`, and the result is `1`, not `2`. -/
theorem C15_major_version_of_leftmost_marker_witness :
    getMajorVersion "dev1_v2_3.zip" = (1, none) ∧
    (getMajorVersion "dev1_v2_3.zip" =
        (((min (decimalValue "1".toList) (2 ^ 63 - 1) : Nat) : Int), none) ∧
      (decimalValue "1".toList ≤ 2 ^ 63 - 1 →
        getMajorVersion "dev1_v2_3.zip" = (((decimalValue "1".toList : Nat) : Int), none))) :=
  ⟨by decide,
    (C15_major_version_of_leftmost_marker "dev1_v2_3.zip").2.2.2
      "de".toList "1".toList "_v2_3".toList (by decide)
      ((findMajorSubmatch_eq_none_iff "de".toList).1 (by decide))
      (by decide) (by decide)
      (by
        intro c rest hb
        have hb2 : '_' :: "v2_3".toList = c :: rest := hb
        rw [← (List.cons.inj hb2).1]
        decide)⟩

/-! ## Lemmas on extraction -/

theorem mem_selectedPairs (members factsetFiles : List String) (m r : String) :
    (m, r) ∈ selectedPairs members factsetFiles ↔
      m ∈ members ∧ r ∈ factsetFiles ∧ selects m r = true := by
  simp only [selectedPairs, List.mem_flatMap, List.mem_map, List.mem_filter, Prod.mk.injEq]
  constructor
  · rintro ⟨m1, hm1, r1, ⟨hr1, hsel⟩, rfl, rfl⟩
    exact ⟨hm1, hr1, hsel⟩
  · rintro ⟨hm, hr, hsel⟩
    exact ⟨m, hm, r, ⟨hr, hsel⟩, rfl, rfl⟩

theorem selectedPairs_cons (fName : String) (rest factsetFiles : List String) :
    selectedPairs (fName :: rest) factsetFiles =
      (factsetFiles.filter (selects fName)).map (fun r => (fName, r)) ++
        selectedPairs rest factsetFiles := by
  simp [selectedPairs, List.flatMap_cons]

/-- The inner loop of `unzip`, when it ends without error, has appended one name per
requested name that selects the member. -/
theorem unzipFactsetFiles_ok {σ : Type} (sys : LocalSystem σ) (archive dest fName : String)
    (factsetFiles : List String) :
    ∀ (acc : List String) (s : σ) (acc1 : List String) (s1 : σ),
      unzipFactsetFiles sys archive dest fName factsetFiles acc s = ((acc1, none), s1) →
      acc1 = acc ++ (factsetFiles.filter (selects fName)).map
        (fun _ => extractedName archive dest fName) := by
  induction factsetFiles with
  | nil =>
    intro acc s acc1 s1 h
    simp only [unzipFactsetFiles, Prod.mk.injEq, and_true] at h
    simp [h.1]
  | cons factsetFile rest ih =>
    intro acc s acc1 s1 h
    rw [unzipFactsetFiles] at h
    by_cases hsel : strings.Contains fName (strings.TrimSuffix factsetFile ".txt") = true
    · simp only [hsel, Bool.not_true, Bool.false_eq_true, if_false] at h
      rcases ho : sys.zipFileOpen fName s with ⟨_ | err, t1⟩
      · rw [ho] at h
        simp only [] at h
        rcases hc : sys.osCreate (extractPath archive dest fName) t1 with ⟨_ | err, t2⟩
        · rw [hc] at h
          simp only [] at h
          rcases hy : sys.ioCopy (extractPath archive dest fName) fName t2 with ⟨_ | err, t3⟩
          · rw [hy] at h
            simp only [] at h
            rw [ih _ _ _ _ h]
            simp [selects, hsel, extractedName, List.filter_cons]
          · rw [hy] at h
            simp at h
        · rw [hc] at h
          simp at h
      · rw [ho] at h
        simp at h
    · simp only [Bool.not_eq_true] at hsel
      simp only [hsel, Bool.not_false, if_true] at h
      rw [ih _ _ _ _ h]
      simp [selects, hsel, List.filter_cons]

/-- The outer loop of `unzip`, when it ends without error, has appended one name per
selected pair, by member and then by requested name. -/
theorem unzipMembers_ok {σ : Type} (sys : LocalSystem σ) (archive dest : String)
    (factsetFiles : List String) (members : List String) :
    ∀ (acc : List String) (s : σ) (acc1 : List String) (s1 : σ),
      unzipMembers sys archive dest factsetFiles members acc s = ((acc1, none), s1) →
      acc1 = acc ++ (selectedPairs members factsetFiles).map
        (fun p => extractedName archive dest p.1) := by
  induction members with
  | nil =>
    intro acc s acc1 s1 h
    simp only [unzipMembers, Prod.mk.injEq, and_true] at h
    simp [h.1, selectedPairs]
  | cons fName rest ih =>
    intro acc s acc1 s1 h
    rw [unzipMembers] at h
    rcases hin : unzipFactsetFiles sys archive dest fName factsetFiles acc s
      with ⟨⟨acc2, _ | err⟩, t1⟩
    · rw [hin] at h
      simp only [] at h
      rw [ih _ _ _ _ h, unzipFactsetFiles_ok sys archive dest fName factsetFiles _ _ _ _ hin,
        selectedPairs_cons]
      simp [List.map_append, Function.comp_def]
    · rw [hin] at h
      simp at h

theorem unzip_ok {σ : Type} (sys : LocalSystem σ) (archive dest : String)
    (factsetFiles members result : List String) (s s1 s2 : σ)
    (hopen : sys.zipOpenReader (path.Join [dest, archive]) s = ((members, none), s1))
    (hok : unzip sys archive factsetFiles dest s = ((result, none), s2)) :
    result = (selectedPairs members factsetFiles).map
      (fun p => extractedName archive dest p.1) := by
  simp only [unzip, hopen] at hok
  rcases hm : unzipMembers sys archive dest factsetFiles members [] s1 with ⟨⟨acc, oe⟩, t⟩
  rw [hm] at hok
  simp only [Prod.mk.injEq] at hok
  obtain ⟨⟨hacc, hoe⟩, -⟩ := hok
  subst hacc hoe
  have := unzipMembers_ok sys archive dest factsetFiles members [] s1 _ _ hm
  simpa using this

/-- When the extraction directory is a clean path and the member's name has only proper
path elements, the name `unzip` reports for the member is the member's own name. -/
theorem extractedName_clean (archive dest fName : String)
    (hclean : path.Clean (cadenceDir archive dest) = cadenceDir archive dest)
    (hplain : PlainName fName) : extractedName archive dest fName = fName := by
  have hep := extractPath_plain archive dest fName hplain
  have hdir : cadenceDir archive dest =
      dest ++ "/" ++ (if strings.Contains archive "full" then weekly else daily) := by
    unfold cadenceDir
    cases strings.Contains archive "full" <;> simp
  have hcl : path.Clean (cadenceDir archive dest) =
      String.mk (cleanedRoot dest.toList ++
        (if strings.Contains archive "full" then weekly else daily).toList) := by
    rw [hdir]
    cases strings.Contains archive "full"
    · exact path_Clean_dir dest daily (by decide) (by decide)
    · exact path_Clean_dir dest weekly (by decide) (by decide)
  rw [hclean] at hcl
  have hroot : cleanedRoot dest.toList ++
      (if strings.Contains archive "full" then weekly else daily).toList
        = (cadenceDir archive dest).toList := by
    rw [hcl]
    rfl
  have hpath : (extractPath archive dest fName).toList =
      ((cadenceDir archive dest).toList ++ ['/']) ++ fName.toList := by
    rw [hep, ← hroot]
    simp
  have hpre : (cadenceDir archive dest ++ "/").toList = (cadenceDir archive dest).toList ++ ['/'] := by
    simp
  unfold extractedName strings.TrimPrefix trimPrefixChars
  rw [hpath, hpre]
  have hp : ((cadenceDir archive dest).toList ++ ['/']).isPrefixOf
      (((cadenceDir archive dest).toList ++ ['/']) ++ fName.toList) = true := by
    rw [List.isPrefixOf_iff_prefix]
    exact List.prefix_append _ _
  rw [if_pos hp, List.drop_left]
  rfl

/-- The recording system: what `unzip`'s inner loop returns and which paths it creates. -/
theorem unzipFactsetFiles_recording_exact (members : List String) (archive dest fName : String)
    (factsetFiles : List String) : ∀ (acc created : List String),
    unzipFactsetFiles (recordingSystem members) archive dest fName factsetFiles acc created
      = ((acc ++ (factsetFiles.filter (selects fName)).map
            (fun _ => extractedName archive dest fName), none),
          created ++ (factsetFiles.filter (selects fName)).map
            (fun _ => extractPath archive dest fName)) := by
  induction factsetFiles with
  | nil => intro acc created; simp [unzipFactsetFiles]
  | cons factsetFile rest ih =>
    intro acc created
    rw [unzipFactsetFiles]
    by_cases hsel : strings.Contains fName (strings.TrimSuffix factsetFile ".txt") = true
    · simp only [hsel, Bool.not_true, Bool.false_eq_true, if_false, recordingSystem]
      have := ih (acc ++ [strings.TrimPrefix (extractPath archive dest fName)
          (cadenceDir archive dest ++ "/")]) (created ++ [extractPath archive dest fName])
      simp only [recordingSystem] at this
      rw [this]
      simp [selects, hsel, extractedName, List.filter_cons]
    · simp only [Bool.not_eq_true] at hsel
      simp only [hsel, Bool.not_false, if_true]
      rw [ih]
      simp [selects, hsel, List.filter_cons]

theorem unzipMembers_recording_exact (members : List String) (archive dest : String)
    (factsetFiles : List String) (fs : List String) : ∀ (acc created : List String),
    unzipMembers (recordingSystem members) archive dest factsetFiles fs acc created
      = ((acc ++ (selectedPairs fs factsetFiles).map
            (fun p => extractedName archive dest p.1), none),
          created ++ (selectedPairs fs factsetFiles).map
            (fun p => extractPath archive dest p.1)) := by
  induction fs with
  | nil => intro acc created; simp [unzipMembers, selectedPairs]
  | cons fName rest ih =>
    intro acc created
    rw [unzipMembers, unzipFactsetFiles_recording_exact]
    simp only []
    rw [ih, selectedPairs_cons]
    simp [List.map_append, Function.comp_def]

/-- In the recording system `unzip` succeeds, returns one name per selected pair and
creates one path per selected pair, by member and then by requested name. -/
theorem unzip_recording_exact (members : List String) (archive dest : String)
    (factsetFiles : List String) :
    unzip (recordingSystem members) archive factsetFiles dest []
      = (((selectedPairs members factsetFiles).map (fun p => extractedName archive dest p.1),
          none),
        (selectedPairs members factsetFiles).map (fun p => extractPath archive dest p.1)) := by
  have hopen : (recordingSystem members).zipOpenReader (path.Join [dest, archive]) []
      = ((members, none), []) := rfl
  simp only [unzip, hopen, unzipMembers_recording_exact]
  simp [recordingSystem]

/-! ## Extraction: the returned list -/

/-- C11 as stated fails: with the destination root `out/`, the archive `prices_v2_3.zip`,
its single member `prices_2021.txt` and the requested name `prices_2021.txt`, `unzip`
succeeds and returns `out/daily/prices_2021.txt`, which is not the member's own name: the
created path is cleaned, and the text `out//daily/` is not at its front.  With the
destination root `out` and the member `../weekly/prices_2021.txt` of the same archive, the
returned element is `out/weekly/prices_2021.txt`, again not the member's own name. -/
theorem C11_counterexample_returned_name_is_not_member_name :
    selectedPairs ["prices_2021.txt"] ["prices_2021.txt"]
      = [("prices_2021.txt", "prices_2021.txt")] ∧
    extractPath "prices_v2_3.zip" "out/" "prices_2021.txt" = "out/daily/prices_2021.txt" ∧
    cadenceDir "prices_v2_3.zip" "out/" ++ "/" = "out//daily/" ∧
    unzip (exampleSystem ["prices_2021.txt"]) "prices_v2_3.zip" ["prices_2021.txt"] "out/" ()
      = ((["out/daily/prices_2021.txt"], none), ()) ∧
    "out/daily/prices_2021.txt" ≠ "prices_2021.txt" ∧
    unzip (exampleSystem ["../weekly/prices_2021.txt"]) "prices_v2_3.zip" ["prices_2021.txt"]
        "out" ()
      = ((["out/weekly/prices_2021.txt"], none), ()) ∧
    "out/weekly/prices_2021.txt" ≠ "../weekly/prices_2021.txt" := by
  decide

/-- C11 amended: whenever `unzip` succeeds on an archive with members `members`, the list
it returns has one element per pair (member, requested name) such that the member's name
contains the requested name with a trailing `.txt` removed, ordered by member and then by
requested name, and the element of a pair depends on its member only (a member selected by
several requested names appears several times).  When the extraction directory is a clean
path and every member's name has only proper path elements, each element is the member's
own name as stored in the archive. -/
theorem C11_result_lists_selected_pairs {σ : Type} (sys : LocalSystem σ)
    (archive dest : String) (factsetFiles members result : List String) (s s1 s2 : σ)
    (hopen : sys.zipOpenReader (path.Join [dest, archive]) s = ((members, none), s1))
    (hok : unzip sys archive factsetFiles dest s = ((result, none), s2)) :
    (∀ m r, (m, r) ∈ selectedPairs members factsetFiles ↔
      m ∈ members ∧ r ∈ factsetFiles ∧
        strings.Contains m (strings.TrimSuffix r ".txt") = true) ∧
    result.length = (selectedPairs members factsetFiles).length ∧
    result = (selectedPairs members factsetFiles).map
      (fun p => extractedName archive dest p.1) ∧
    (path.Clean (cadenceDir archive dest) = cadenceDir archive dest →
      (∀ m ∈ members, PlainName m) →
      result = (selectedPairs members factsetFiles).map (fun p => p.1)) := by
  have hres := unzip_ok sys archive dest factsetFiles members result s s1 s2 hopen hok
  refine ⟨fun m r => mem_selectedPairs members factsetFiles m r, ?_, hres, ?_⟩
  · rw [hres, List.length_map]
  · intro hclean hplain
    rw [hres]
    apply List.map_congr_left
    intro p hp
    have hm : p.1 ∈ members := ((mem_selectedPairs members factsetFiles p.1 p.2).1 hp).1
    exact extractedName_clean archive dest p.1 hclean (hplain p.1 hm)

/-- C11 amended, at an archive with three members and two requested names: the two
members that contain `prices` are each selected by both requested names and appear twice,
under their own names. -/
theorem C11_result_lists_selected_pairs_witness :
    unzip (exampleSystem ["prices_2021.txt", "other.txt", "prices_2021_b.txt"])
        "prices_full_v2_3.zip" ["prices_2021.txt", "prices"] "out" ()
      = ((["prices_2021.txt", "prices_2021.txt", "prices_2021_b.txt", "prices_2021_b.txt"],
          none), ()) ∧
    path.Clean (cadenceDir "prices_full_v2_3.zip" "out")
      = cadenceDir "prices_full_v2_3.zip" "out" ∧
    (∀ m ∈ ["prices_2021.txt", "other.txt", "prices_2021_b.txt"], PlainName m) ∧
    ["prices_2021.txt", "prices_2021.txt", "prices_2021_b.txt", "prices_2021_b.txt"] =
      (selectedPairs ["prices_2021.txt", "other.txt", "prices_2021_b.txt"]
        ["prices_2021.txt", "prices"]).map (fun p => p.1) :=
  ⟨by decide, by decide, by decide,
    (C11_result_lists_selected_pairs
      (exampleSystem ["prices_2021.txt", "other.txt", "prices_2021_b.txt"])
      "prices_full_v2_3.zip" "out" ["prices_2021.txt", "prices"]
      ["prices_2021.txt", "other.txt", "prices_2021_b.txt"]
      ["prices_2021.txt", "prices_2021.txt", "prices_2021_b.txt", "prices_2021_b.txt"]
      () () () rfl (by decide)).2.2.2 (by decide) (by decide)⟩

/-! ## Requested names that select everything -/

theorem containsChars_nil (s : List Char) : containsChars [] s = true := by
  cases s <;> simp [containsChars, List.isPrefixOf]

theorem selects_of_empty_base (fName r : String) (hr : strings.TrimSuffix r ".txt" = "") :
    selects fName r = true := by
  simp only [selects, hr, strings.Contains]
  exact containsChars_nil _

theorem splitLoop_semicolon_step (cur : List Char) (c : Char) (rest : List Char) :
    splitLoop [';'] 0 cur (c :: rest) =
      if c = ';' then cur.reverse :: splitLoop [';'] 0 [] rest
      else splitLoop [';'] 0 (c :: cur) rest := by
  rw [splitLoop]
  by_cases hc : c = ';'
  · simp [hc, List.isPrefixOf]
  · have hc2 : ¬ (';' = c) := fun h => hc h.symm
    simp [hc, hc2, List.isPrefixOf]

theorem splitLoop_mem_after (a rest : List Char) (x : List Char)
    (hx : x ∈ splitLoop [';'] 0 [] rest) :
    ∀ cur, x ∈ splitLoop [';'] 0 cur (a ++ ';' :: rest) := by
  induction a with
  | nil =>
    intro cur
    rw [List.nil_append, splitLoop_semicolon_step, if_pos rfl]
    exact List.mem_cons_of_mem _ hx
  | cons c a ih =>
    intro cur
    rw [List.cons_append, splitLoop_semicolon_step]
    split
    · exact List.mem_cons_of_mem _ (ih [])
    · exact ih _

theorem split_semicolon (s : String) :
    strings.Split s ";" = (splitLoop [';'] 0 [] s.toList).map String.mk := by
  have h : ";".toList = [';'] := rfl
  simp only [strings.Split, h, reduceCtorEq, if_false]

theorem empty_mem_split_of_tail (a rest : List Char) (s : String)
    (hs : s.toList = a ++ ';' :: rest) (hx : [] ∈ splitLoop [';'] 0 [] rest) :
    "" ∈ strings.Split s ";" := by
  rw [split_semicolon, hs]
  exact List.mem_map.2 ⟨[], splitLoop_mem_after a rest [] hx [], rfl⟩

/-- C17: when the requested names include the empty name or the bare name `.txt`, the
selection test of `unzip` passes for every member name, because the base name is empty; so
in a system where every operation succeeds a file is created for every member of the
archive, and whenever `unzip` succeeds every member has an element in the returned list.
The empty name is among the requested names when the `;`-separated text is empty or has a
leading, a trailing or a doubled `;`. -/
theorem C17_empty_requested_name_selects_every_member (factsetFiles : List String)
    (h : "" ∈ factsetFiles ∨ ".txt" ∈ factsetFiles) :
    (∀ fName : String, ∃ r ∈ factsetFiles,
      strings.TrimSuffix r ".txt" = "" ∧
        strings.Contains fName (strings.TrimSuffix r ".txt") = true) ∧
    (∀ (members : List String) (archive dest : String), ∀ m ∈ members,
      extractPath archive dest m ∈
        (unzip (recordingSystem members) archive factsetFiles dest []).2) ∧
    (∀ {σ : Type} (sys : LocalSystem σ) (archive dest : String)
        (members result : List String) (s s1 s2 : σ),
      sys.zipOpenReader (path.Join [dest, archive]) s = ((members, none), s1) →
      unzip sys archive factsetFiles dest s = ((result, none), s2) →
      ∀ m ∈ members, extractedName archive dest m ∈ result) ∧
    (strings.Split "" ";" = [""] ∧
      ∀ t u : String, "" ∈ strings.Split (";" ++ t) ";" ∧ "" ∈ strings.Split (t ++ ";") ";" ∧
        "" ∈ strings.Split (t ++ ";;" ++ u) ";") := by
  have hbase : ∃ r ∈ factsetFiles, strings.TrimSuffix r ".txt" = "" := by
    rcases h with h | h
    · exact ⟨"", h, by decide⟩
    · exact ⟨".txt", h, by decide⟩
  obtain ⟨r, hr, hrb⟩ := hbase
  have hpair : ∀ (members : List String), ∀ m ∈ members,
      (m, r) ∈ selectedPairs members factsetFiles := fun members m hm =>
    (mem_selectedPairs members factsetFiles m r).2 ⟨hm, hr, selects_of_empty_base m r hrb⟩
  refine ⟨?_, ?_, ?_, ?_, ?_⟩
  · intro fName
    exact ⟨r, hr, hrb, selects_of_empty_base fName r hrb⟩
  · intro members archive dest m hm
    rw [unzip_recording_exact]
    exact List.mem_map.2 ⟨(m, r), hpair members m hm, rfl⟩
  · intro σ sys archive dest members result s s1 s2 hopen hok m hm
    rw [unzip_ok sys archive dest factsetFiles members result s s1 s2 hopen hok]
    exact List.mem_map.2 ⟨(m, r), hpair members m hm, rfl⟩
  · decide
  · intro t u
    refine ⟨?_, ?_, ?_⟩
    · rw [split_semicolon]
      have hl : (";" ++ t).toList = ';' :: t.toList := by simp
      rw [hl, splitLoop_semicolon_step, if_pos rfl]
      exact List.mem_map.2 ⟨[], by simp, rfl⟩
    · apply empty_mem_split_of_tail t.toList [] (t ++ ";") (by simp)
      simp [splitLoop]
    · apply empty_mem_split_of_tail t.toList (';' :: u.toList) (t ++ ";;" ++ u) (by simp)
      rw [splitLoop_semicolon_step, if_pos rfl]
      simp

/-- C17 at the requested text `prices.txt;`, whose trailing `;` yields the empty name:
both members of the archive are extracted, also the one that has nothing to do with
`prices`. -/
theorem C17_empty_requested_name_selects_every_member_witness :
    strings.Split "prices.txt;" ";" = ["prices.txt", ""] ∧
    (unzip (recordingSystem ["notes.csv", "prices_2021.txt"]) "prices_v2_3.zip"
      ["prices.txt", ""] "out" []).2
      = ["out/daily/notes.csv", "out/daily/prices_2021.txt", "out/daily/prices_2021.txt"] ∧
    ∀ m ∈ ["notes.csv", "prices_2021.txt"],
      extractPath "prices_v2_3.zip" "out" m ∈
        (unzip (recordingSystem ["notes.csv", "prices_2021.txt"]) "prices_v2_3.zip"
          ["prices.txt", ""] "out" []).2 :=
  ⟨by decide, by decide,
    (C17_empty_requested_name_selects_every_member ["prices.txt", ""]
      (Or.inl (by decide))).2.1 ["notes.csv", "prices_2021.txt"] "prices_v2_3.zip" "out"⟩

/-! ## Lemmas on decimal texts -/

theorem decimalDigits_small (n : Nat) (h : n < 10) : decimalDigits n = [Nat.digitChar n] := by
  rw [decimalDigits, if_pos h]

theorem decimalDigits_large (n : Nat) (h : ¬ n < 10) :
    decimalDigits n = decimalDigits (n / 10) ++ [Nat.digitChar (n % 10)] := by
  rw [decimalDigits, if_neg h]

theorem toDigitsCore_eq_decimalDigits (fuel : Nat) :
    ∀ (n : Nat) (ds : List Char), n < fuel →
      Nat.toDigitsCore 10 fuel n ds = decimalDigits n ++ ds := by
  induction fuel with
  | zero => intro n ds h; omega
  | succ fuel ih =>
    intro n ds h
    rw [Nat.toDigitsCore]
    by_cases hq : n / 10 = 0
    · have hn : n < 10 := by omega
      simp only [hq, if_true]
      rw [decimalDigits_small n hn, Nat.mod_eq_of_lt hn]
      rfl
    · have hn : ¬ n < 10 := by omega
      simp only [hq, if_false]
      rw [ih (n / 10) _ (by omega), decimalDigits_large n hn]
      simp

theorem repr_eq_decimalDigits (n : Nat) : Nat.repr n = String.mk (decimalDigits n) := by
  show String.mk (Nat.toDigitsCore 10 (n + 1) n []) = _
  rw [toDigitsCore_eq_decimalDigits (n + 1) n [] (by omega), List.append_nil]

theorem itoa_natCast (n : Nat) : strconv.Itoa (n : Int) = String.mk (decimalDigits n) := by
  have h : ¬ ((n : Int) < 0) := by omega
  simp only [strconv.Itoa, h, if_false, Int.natAbs_ofNat, repr_eq_decimalDigits]

theorem digitVal_lt (c : Char) (h : c.isDigit = true) : digitVal c < 10 := by
  simp only [Char.isDigit, Bool.and_eq_true, decide_eq_true_eq] at h
  have h1 : 48 ≤ c.toNat := h.1
  have h2 : c.toNat ≤ 57 := h.2
  unfold digitVal
  omega

theorem digitChar_digitVal (c : Char) (h : c.isDigit = true) :
    Nat.digitChar (digitVal c) = c := by
  simp only [Char.isDigit, Bool.and_eq_true, decide_eq_true_eq] at h
  have h1 : 48 ≤ c.toNat := h.1
  have h2 : c.toNat ≤ 57 := h.2
  have hc : Char.ofNat c.toNat = c := Char.ofNat_toNat c
  unfold digitVal
  rw [← hc]
  generalize c.toNat = k at h1 h2
  interval_cases k <;> decide

theorem decimalValue_snoc (ds : List Char) (c : Char) :
    decimalValue (ds ++ [c]) = 10 * decimalValue ds + digitVal c := by
  simp [decimalValue, List.foldl_append]

/-- The decimal text of the value of a digit run is the run without its leading zeros
(one zero is kept when there is nothing else): it is a final segment of the run. -/
theorem decimalDigits_suffix (ds : List Char) :
    ds ≠ [] → (∀ c ∈ ds, c.isDigit = true) → decimalDigits (decimalValue ds) <:+ ds := by
  induction ds using List.reverseRecOn with
  | nil => intro h; exact absurd rfl h
  | append_singleton l c ih =>
    intro _ hall
    have hc : c.isDigit = true := hall c (by simp)
    have hl : ∀ x ∈ l, x.isDigit = true := fun x hx => hall x (by simp [hx])
    have hd := digitVal_lt c hc
    rw [decimalValue_snoc]
    by_cases hz : decimalValue l = 0
    · rw [hz, decimalDigits_small _ (by omega)]
      simp only [Nat.mul_zero, Nat.zero_add]
      rw [digitChar_digitVal c hc]
      exact List.suffix_append l [c]
    · rw [decimalDigits_large _ (by omega)]
      have e1 : (10 * decimalValue l + digitVal c) / 10 = decimalValue l := by omega
      have e2 : (10 * decimalValue l + digitVal c) % 10 = digitVal c := by omega
      rw [e1, e2, digitChar_digitVal c hc]
      have hlne : l ≠ [] := by
        rintro rfl
        exact hz rfl
      obtain ⟨t, ht⟩ := ih hlne hl
      exact ⟨t, by rw [← List.append_assoc, ht]⟩

theorem containsChars_iff_occurs (sub s : List Char) :
    containsChars sub s = true ↔ sub <:+: s := by
  induction s with
  | nil =>
    rw [containsChars, List.isPrefixOf_iff_prefix, List.prefix_nil, List.infix_nil]
  | cons c t ih =>
    rw [containsChars, Bool.or_eq_true, List.isPrefixOf_iff_prefix, ih, List.infix_cons_iff]

theorem trimSuffixChars_initial (s suffix : List Char) : trimSuffixChars s suffix <+: s := by
  unfold trimSuffixChars
  split
  · exact List.take_prefix _ _
  · exact List.prefix_refl _

theorem contains_of_infix_trimmed (name : String) (sub : List Char)
    (h : sub <:+: (strings.TrimSuffix name ".zip").toList) :
    strings.Contains name (String.mk sub) = true := by
  unfold strings.Contains
  rw [containsChars_iff_occurs]
  exact h.trans (trimSuffixChars_initial _ _).isInfix

/-- On a name that parses and whose digit runs fit in an `int`, the parsed numbers are
the values of the matched digit runs, and their decimal texts are final segments of the
runs, hence parts of the name. -/
theorem parsed_text_in_name {name : String} (hwf : WellFormed name) (hfit : DigitRunsFit name) :
    (strconv.Itoa (parsedPair name).1).toList <:+ majorDigitRun name ∧
    (strconv.Itoa (parsedPair name).2).toList <:+ minorDigitRun name ∧
    strings.Contains name (strconv.Itoa (parsedPair name).1) = true ∧
    strings.Contains name (strconv.Itoa (parsedPair name).2) = true := by
  obtain ⟨hM, hm⟩ := (wellFormed_iff_markers name).1 hwf
  obtain ⟨a, b, hs, hfind, hne, hall, -, -⟩ := majorDigitRun_spec hM
  obtain ⟨a2, hs2, hfind2, hne2, hall2⟩ := minorDigitRun_spec hm
  have hget := getMajorVersion_of_match hfind hne (by simpa using hall)
  have hget2 := getMinorVersion_of_match hfind2 hne2 (by simpa using hall2)
  rw [Nat.min_eq_left hfit.1] at hget
  rw [Nat.min_eq_left hfit.2] at hget2
  have hsuf := decimalDigits_suffix _ hne hall
  have hsuf2 := decimalDigits_suffix _ hne2 hall2
  have e1 : strconv.Itoa (parsedPair name).1
      = String.mk (decimalDigits (decimalValue (majorDigitRun name))) := by
    simp only [parsedPair, hget, itoa_natCast]
  have e2 : strconv.Itoa (parsedPair name).2
      = String.mk (decimalDigits (decimalValue (minorDigitRun name))) := by
    simp only [parsedPair, hget2, itoa_natCast]
  refine ⟨by rw [e1]; exact hsuf, by rw [e2]; exact hsuf2, ?_, ?_⟩
  · rw [e1]
    apply contains_of_infix_trimmed
    rw [hs]
    have h1 : majorDigitRun name <:+: a ++ 'v' :: majorDigitRun name ++ b :=
      ⟨a ++ ['v'], b, by simp⟩
    exact hsuf.isInfix.trans h1
  · rw [e2]
    apply contains_of_infix_trimmed
    rw [hs2]
    have h1 : minorDigitRun name <:+: a2 ++ '_' :: minorDigitRun name :=
      ⟨a2 ++ ['_'], [], by simp⟩
    exact hsuf2.isInfix.trans h1

/-! ## No under-matching of the winning version -/

/-- C16: on a listing of well-formed names whose version digit runs fit in an `int`, the
decimal text of each parsed number is a final segment of the digit run it was parsed from
(the run without its leading zeros), hence a part of the name; every entry that contains
the search term and whose parsed pair equals the resolved pair is in the result of
`GetMostRecentZips`; and if some such entry exists, resolution succeeds. -/
theorem C16_entries_of_the_resolved_version_are_returned (files : List FileInfo)
    (searchedFileName : String) (hwf : ∀ f ∈ files, WellFormed f.Name)
    (hfit : ∀ f ∈ files, DigitRunsFit f.Name) :
    (∀ f ∈ files,
      (strconv.Itoa (parsedPair f.Name).1).toList <:+ majorDigitRun f.Name ∧
      (strconv.Itoa (parsedPair f.Name).2).toList <:+ minorDigitRun f.Name ∧
      strings.Contains f.Name (strconv.Itoa (parsedPair f.Name).1) = true ∧
      strings.Contains f.Name (strconv.Itoa (parsedPair f.Name).2) = true) ∧
    ∃ best : FoundFile, scanVersions files ⟨"", 0, 0⟩ = (best, none) ∧
      (∀ f ∈ files, strings.Contains f.Name searchedFileName = true →
        parsedPair f.Name = (best.majorVersion, best.minorVersion) →
        f.Name ∈ (GetMostRecentZips files searchedFileName).1) ∧
      ((∃ f ∈ files, strings.Contains f.Name searchedFileName = true ∧
          parsedPair f.Name = (best.majorVersion, best.minorVersion)) →
        (GetMostRecentZips files searchedFileName).2 = none) := by
  have htext : ∀ f ∈ files,
      (strconv.Itoa (parsedPair f.Name).1).toList <:+ majorDigitRun f.Name ∧
      (strconv.Itoa (parsedPair f.Name).2).toList <:+ minorDigitRun f.Name ∧
      strings.Contains f.Name (strconv.Itoa (parsedPair f.Name).1) = true ∧
      strings.Contains f.Name (strconv.Itoa (parsedPair f.Name).2) = true :=
    fun f hf => parsed_text_in_name (hwf f hf) (hfit f hf)
  obtain ⟨best, hb, -⟩ := scanVersions_wellFormed files ⟨"", 0, 0⟩ hwf
  have hmem : ∀ f ∈ files, strings.Contains f.Name searchedFileName = true →
      parsedPair f.Name = (best.majorVersion, best.minorVersion) →
      f.Name ∈ (files.map FileInfo.Name).filter
        (matchesResolved searchedFileName best.majorVersion best.minorVersion) := by
    intro f hf hterm hpair
    obtain ⟨-, -, h1, h2⟩ := htext f hf
    rw [hpair] at h1 h2
    simp only [] at h1 h2
    rw [List.mem_filter, List.mem_map]
    refine ⟨⟨f, hf, rfl⟩, ?_⟩
    simp [matchesResolved, hterm, h1, h2]
  refine ⟨htext, best, hb, ?_, ?_⟩
  · intro f hf hterm hpair
    have hin := hmem f hf hterm hpair
    rw [GetMostRecentZips_of_scan hb]
    simp only []
    rw [if_pos (List.length_pos_of_mem hin)]
    exact hin
  · rintro ⟨f, hf, hterm, hpair⟩
    have hin := hmem f hf hterm hpair
    rw [GetMostRecentZips_of_scan hb]
    simp only []
    rw [if_pos (List.length_pos_of_mem hin)]

/-- C16 at a listing whose winning entry writes its version with leading zeros:
`prices_v007_03.zip` parses to `(7, 3)`, the texts `7` and `3` are in its name, and it is
returned for the search term `prices`. -/
theorem C16_entries_of_the_resolved_version_are_returned_witness :
    (parsedPair "prices_v007_03.zip" = (7, 3) ∧
      GetMostRecentZips [⟨"prices_v007_03.zip"⟩, ⟨"rates_v1_9.zip"⟩] "prices"
        = (["prices_v007_03.zip"], none)) ∧
    ((∀ f ∈ [(⟨"prices_v007_03.zip"⟩ : FileInfo), ⟨"rates_v1_9.zip"⟩],
      (strconv.Itoa (parsedPair f.Name).1).toList <:+ majorDigitRun f.Name ∧
      (strconv.Itoa (parsedPair f.Name).2).toList <:+ minorDigitRun f.Name ∧
      strings.Contains f.Name (strconv.Itoa (parsedPair f.Name).1) = true ∧
      strings.Contains f.Name (strconv.Itoa (parsedPair f.Name).2) = true) ∧
    ∃ best : FoundFile,
      scanVersions [⟨"prices_v007_03.zip"⟩, ⟨"rates_v1_9.zip"⟩] ⟨"", 0, 0⟩ = (best, none) ∧
      (∀ f ∈ [(⟨"prices_v007_03.zip"⟩ : FileInfo), ⟨"rates_v1_9.zip"⟩],
        strings.Contains f.Name "prices" = true →
        parsedPair f.Name = (best.majorVersion, best.minorVersion) →
        f.Name ∈ (GetMostRecentZips [⟨"prices_v007_03.zip"⟩, ⟨"rates_v1_9.zip"⟩] "prices").1) ∧
      ((∃ f ∈ [(⟨"prices_v007_03.zip"⟩ : FileInfo), ⟨"rates_v1_9.zip"⟩],
          strings.Contains f.Name "prices" = true ∧
          parsedPair f.Name = (best.majorVersion, best.minorVersion)) →
        (GetMostRecentZips [⟨"prices_v007_03.zip"⟩, ⟨"rates_v1_9.zip"⟩] "prices").2 = none)) :=
  ⟨⟨by decide, by decide⟩,
    C16_entries_of_the_resolved_version_are_returned
      [⟨"prices_v007_03.zip"⟩, ⟨"rates_v1_9.zip"⟩] "prices" (by decide) (by decide)⟩

/-! ## Names that stay inside the extraction directory -/

theorem climb_cons (depth : Nat) (e : List Char) (es : List (List Char)) :
    climb depth (e :: es) =
      if e = [] ∨ e = ['.'] then climb depth es
      else if e = ['.', '.'] then
        match depth with
        | 0 => none
        | d + 1 => climb d es
      else climb (depth + 1) es := by
  cases depth <;> simp only [climb]

/-- While the walk of a name does not leave the directory, `path.Clean` only touches the
elements the name itself has added: the stack below them is left as it was. -/
theorem foldl_cleanStep_climb (rooted : Bool) (below : List (List Char))
    (es : List (List Char)) :
    ∀ (top : List (List Char)) (d : Nat), (∀ e ∈ top, e ≠ ['.', '.']) →
      climb top.length es = some d →
      es.foldl (cleanStep rooted) (top ++ below) = es.foldl (cleanStep false) top ++ below ∧
      (es.foldl (cleanStep false) top).length = d := by
  induction es with
  | nil =>
    intro top d _ h
    simp only [climb, Option.some.injEq] at h
    exact ⟨rfl, h⟩
  | cons e es ih =>
    intro top d htop h
    rw [climb_cons] at h
    rw [List.foldl_cons, List.foldl_cons]
    by_cases h1 : e = [] ∨ e = ['.']
    · rw [if_pos h1] at h
      have e1 : cleanStep rooted (top ++ below) e = top ++ below := by simp [cleanStep, h1]
      have e2 : cleanStep false top e = top := by simp [cleanStep, h1]
      rw [e1, e2]
      exact ih top d htop h
    · rw [if_neg h1] at h
      by_cases h2 : e = ['.', '.']
      · rw [if_pos h2] at h
        cases top with
        | nil => simp at h
        | cons t rest =>
          have ht : t ≠ ['.', '.'] := htop t (List.mem_cons_self _ _)
          have e1 : cleanStep rooted (t :: rest ++ below) e = rest ++ below := by
            simp [cleanStep, h2, ht]
          have e2 : cleanStep false (t :: rest) e = rest := by
            simp [cleanStep, h2, ht]
          rw [e1, e2]
          simp only [List.length_cons] at h
          exact ih rest d (fun x hx => htop x (List.mem_cons_of_mem _ hx)) h
      · rw [if_neg h2] at h
        have e1 : cleanStep rooted (top ++ below) e = (e :: top) ++ below := by
          simp [cleanStep, h1, h2]
        have e2 : cleanStep false top e = e :: top := by simp [cleanStep, h1, h2]
        rw [e1, e2]
        apply ih (e :: top) d _ h
        intro x hx
        rcases List.mem_cons.1 hx with rfl | hx
        · exact h2
        · exact htop x hx

/-- Cleaning `d/m` when the elements of `m` leave `kept` (not empty) on top of the stack
of `d`: the cleaned directory part followed by the kept elements. -/
theorem cleanChars_append_of_stack (d m : List Char) (kept : List (List Char))
    (hkept : kept ≠ [])
    (h : (splitSlash m).foldl (cleanStep (decide (d = [] ∨ d.head? = some '/')))
          ((splitSlash d).foldl (cleanStep (decide (d = [] ∨ d.head? = some '/'))) [])
        = kept ++ (splitSlash d).foldl (cleanStep (decide (d = [] ∨ d.head? = some '/'))) []) :
    cleanChars (d ++ '/' :: m) = cleanedRoot d ++ joinSlash kept.reverse := by
  have hrooted : ((d ++ '/' :: m).head? = some '/') ↔ (d = [] ∨ d.head? = some '/') := by
    cases d <;> simp
  have hne : d ++ '/' :: m ≠ [] := by simp
  simp only [cleanChars, hne, if_false, cleanedRoot, splitSlash_append, List.foldl_append,
    h, List.reverse_append, hrooted]
  generalize List.foldl (cleanStep (decide (d = [] ∨ d.head? = some '/'))) [] (splitSlash d)
    = stack
  have hrev : kept.reverse ≠ [] := by simpa using hkept
  have hjoin : joinSlash (stack.reverse ++ kept.reverse) =
      (if stack = [] then [] else joinSlash stack.reverse ++ ['/']) ++ joinSlash kept.reverse := by
    by_cases hst : stack = []
    · simp [hst]
    · rw [joinSlash_append _ _ (by simpa using hst) hrev]
      simp [hst]
  by_cases hr : d = [] ∨ d.head? = some '/'
  · simp [hr, hjoin]
  · simp [hr, hjoin, hkept]

theorem staysInside_climb {name : String} (h : staysInside name = true) :
    ∃ k, climb 0 (splitSlash name.toList) = some (k + 1) := by
  unfold staysInside at h
  split at h
  · rename_i k hk
    exact ⟨k, hk⟩
  · simp at h

/-- Joining a directory `dest/cadence` and a name that stays inside: the cleaned
directory part of `dest`, the cadence element and the kept elements of the name. -/
theorem path_Join_inside (dest cadence fName : String)
    (hc : splitSlash cadence.toList = [cadence.toList])
    (hc2 : cadence.toList ≠ [] ∧ cadence.toList ≠ ['.'] ∧ cadence.toList ≠ ['.', '.'])
    (h : staysInside fName = true) :
    path.Join [dest ++ "/" ++ cadence, fName] =
      path.Clean (dest ++ "/" ++ cadence) ++ "/" ++ insideName fName := by
  obtain ⟨k, hk⟩ := staysInside_climb h
  obtain ⟨hfold, hlen⟩ := foldl_cleanStep_climb
    (decide (dest.toList = [] ∨ dest.toList.head? = some '/'))
    (cadence.toList ::
      (splitSlash dest.toList).foldl
        (cleanStep (decide (dest.toList = [] ∨ dest.toList.head? = some '/'))) [])
    (splitSlash fName.toList) [] (k + 1) (by simp) hk
  have hkeptne : (splitSlash fName.toList).foldl (cleanStep false) [] ≠ [] := by
    intro hnil
    rw [hnil] at hlen
    simp at hlen
  have hstep : ∀ stack : List (List Char),
      cleanStep (decide (dest.toList = [] ∨ dest.toList.head? = some '/')) stack cadence.toList
        = cadence.toList :: stack := by
    intro stack
    unfold cleanStep
    rw [if_neg (by
      rintro (h0 | h0)
      · exact hc2.1 h0
      · exact hc2.2.1 h0), if_neg hc2.2.2]
  have hstack := cleanChars_append_of_stack dest.toList
    (cadence.toList ++ '/' :: fName.toList)
    ((splitSlash fName.toList).foldl (cleanStep false) [] ++ [cadence.toList]) (by simp)
    (by
      rw [splitSlash_append, hc, List.foldl_append, List.foldl_cons, List.foldl_nil, hstep]
      rw [List.nil_append] at hfold
      rw [hfold]
      simp)
  rw [path_Join_dir, hstack, path_Clean_dir dest cadence hc hc2]
  have hjoin : joinSlash
      ((splitSlash fName.toList).foldl (cleanStep false) [] ++ [cadence.toList]).reverse
      = cadence.toList ++
        '/' :: joinSlash ((splitSlash fName.toList).foldl (cleanStep false) []).reverse := by
    rw [List.reverse_append, List.reverse_singleton,
      joinSlash_append _ _ (by simp) (by simpa using hkeptne)]
    rfl
  rw [hjoin]
  apply String.ext
  simp [insideName]

theorem extractPath_inside (archive dest fName : String) (h : staysInside fName = true) :
    extractPath archive dest fName =
      path.Clean (cadenceDir archive dest) ++ "/" ++ insideName fName := by
  unfold extractPath cadenceDir
  cases strings.Contains archive "full"
  · simp only [Bool.false_eq_true, if_false]
    exact path_Join_inside dest daily fName (by decide) (by decide) h
  · simp only [if_true]
    exact path_Join_inside dest weekly fName (by decide) (by decide) h

theorem isUnder_of_eq (dir p rest : String) (h : p = path.Clean dir ++ "/" ++ rest) :
    isUnder dir p = true := by
  unfold isUnder
  rw [List.isPrefixOf_iff_prefix, h]
  exact ⟨rest.toList, by simp⟩

/-- No path is under both the weekly and the daily sub-directory of a destination. -/
theorem isUnder_weekly_daily (dest p : String)
    (hw : isUnder (dest ++ "/" ++ weekly) p = true)
    (hd : isUnder (dest ++ "/" ++ daily) p = true) : False := by
  unfold isUnder at hw hd
  rw [path_Clean_dir dest weekly (by decide) (by decide), List.isPrefixOf_iff_prefix] at hw
  rw [path_Clean_dir dest daily (by decide) (by decide), List.isPrefixOf_iff_prefix] at hd
  simp only [String.toList, List.append_assoc] at hw hd
  obtain ⟨x, hx⟩ := hw
  rw [← hx, List.append_assoc, List.append_assoc, List.prefix_append_right_inj] at hd
  have h2 : weekly.toList = 'w' :: "eekly".toList := by decide
  have h3 : daily.toList = 'd' :: "aily".toList := by decide
  simp only [String.toList] at h2 h3
  rw [h2, h3] at hd
  simp only [List.cons_append, List.cons_prefix_cons] at hd
  exact absurd hd.1 (by decide)

/-! ## The paths `unzip` creates, in any local system -/

/-- The inner loop of `unzip` in the system that records creations: it behaves as in
`sys`, and the paths it creates are, in order, the path of the member once per requested
name that selects it, cut short only by a failing operation. -/
theorem unzipFactsetFiles_recordCreates {σ : Type} (sys : LocalSystem σ)
    (archive dest fName : String) (factsetFiles : List String) :
    ∀ (acc : List String) (s : σ) (log : List String), ∃ created : List String,
      unzipFactsetFiles (recordCreates sys) archive dest fName factsetFiles acc (s, log) =
        ((unzipFactsetFiles sys archive dest fName factsetFiles acc s).1,
          ((unzipFactsetFiles sys archive dest fName factsetFiles acc s).2, log ++ created)) ∧
      created <+: (factsetFiles.filter (selects fName)).map
        (fun _ => extractPath archive dest fName) ∧
      ((unzipFactsetFiles sys archive dest fName factsetFiles acc s).1.2 = none →
        created = (factsetFiles.filter (selects fName)).map
          (fun _ => extractPath archive dest fName)) := by
  induction factsetFiles with
  | nil =>
    intro acc s log
    exact ⟨[], by simp [unzipFactsetFiles], by simp, by simp⟩
  | cons factsetFile rest ih =>
    intro acc s log
    by_cases hsel : strings.Contains fName (strings.TrimSuffix factsetFile ".txt") = true
    · have hfilter : (factsetFile :: rest).filter (selects fName)
          = factsetFile :: rest.filter (selects fName) := by
        simp [selects, hsel, List.filter_cons]
      rw [hfilter]
      rcases ho : sys.zipFileOpen fName s with ⟨_ | err, t1⟩
      · rcases hc : sys.osCreate (extractPath archive dest fName) t1 with ⟨_ | err, t2⟩
        · rcases hy : sys.ioCopy (extractPath archive dest fName) fName t2 with ⟨_ | err, t3⟩
          · obtain ⟨created, hrun, hpre, hall⟩ := ih
              (acc ++ [strings.TrimPrefix (extractPath archive dest fName)
                (cadenceDir archive dest ++ "/")])
              (sys.rcClose fName (sys.fileClose (extractPath archive dest fName) t3))
              (log ++ [extractPath archive dest fName])
            have e1 : unzipFactsetFiles sys archive dest fName (factsetFile :: rest) acc s
                = unzipFactsetFiles sys archive dest fName rest
                  (acc ++ [strings.TrimPrefix (extractPath archive dest fName)
                    (cadenceDir archive dest ++ "/")])
                  (sys.rcClose fName (sys.fileClose (extractPath archive dest fName) t3)) := by
              rw [unzipFactsetFiles]
              simp only [hsel, Bool.not_true, Bool.false_eq_true, if_false, ho, hc, hy]
            have e2 : unzipFactsetFiles (recordCreates sys) archive dest fName
                  (factsetFile :: rest) acc (s, log)
                = unzipFactsetFiles (recordCreates sys) archive dest fName rest
                  (acc ++ [strings.TrimPrefix (extractPath archive dest fName)
                    (cadenceDir archive dest ++ "/")])
                  (sys.rcClose fName (sys.fileClose (extractPath archive dest fName) t3),
                    log ++ [extractPath archive dest fName]) := by
              rw [unzipFactsetFiles]
              simp only [hsel, Bool.not_true, Bool.false_eq_true, if_false, recordCreates,
                ho, hc, hy]
            refine ⟨extractPath archive dest fName :: created, ?_, ?_, ?_⟩
            · rw [e1, e2, hrun]
              simp
            · simp only [List.map_cons]
              exact List.cons_prefix_cons.2 ⟨rfl, hpre⟩
            · intro hok
              rw [e1] at hok
              simp only [List.map_cons]
              rw [hall hok]
          · have e1 : unzipFactsetFiles sys archive dest fName (factsetFile :: rest) acc s
                = (([], some err), t3) := by
              rw [unzipFactsetFiles]
              simp only [hsel, Bool.not_true, Bool.false_eq_true, if_false, ho, hc, hy]
            have e2 : unzipFactsetFiles (recordCreates sys) archive dest fName
                  (factsetFile :: rest) acc (s, log)
                = (([], some err), (t3, log ++ [extractPath archive dest fName])) := by
              rw [unzipFactsetFiles]
              simp only [hsel, Bool.not_true, Bool.false_eq_true, if_false, recordCreates,
                ho, hc, hy]
            refine ⟨[extractPath archive dest fName], ?_, ?_, ?_⟩
            · rw [e1, e2]
            · simp only [List.map_cons]
              exact List.cons_prefix_cons.2 ⟨rfl, List.nil_prefix⟩
            · intro hok
              rw [e1] at hok
              simp at hok
        · have e1 : unzipFactsetFiles sys archive dest fName (factsetFile :: rest) acc s
              = (([], some err), t2) := by
            rw [unzipFactsetFiles]
            simp only [hsel, Bool.not_true, Bool.false_eq_true, if_false, ho, hc]
          have e2 : unzipFactsetFiles (recordCreates sys) archive dest fName
                (factsetFile :: rest) acc (s, log)
              = (([], some err), (t2, log)) := by
            rw [unzipFactsetFiles]
            simp only [hsel, Bool.not_true, Bool.false_eq_true, if_false, recordCreates,
              ho, hc]
          refine ⟨[], ?_, List.nil_prefix, ?_⟩
          · rw [e1, e2, List.append_nil]
          · intro hok
            rw [e1] at hok
            simp at hok
      · have e1 : unzipFactsetFiles sys archive dest fName (factsetFile :: rest) acc s
            = (([], some err), t1) := by
          rw [unzipFactsetFiles]
          simp only [hsel, Bool.not_true, Bool.false_eq_true, if_false, ho]
        have e2 : unzipFactsetFiles (recordCreates sys) archive dest fName
              (factsetFile :: rest) acc (s, log)
            = (([], some err), (t1, log)) := by
          rw [unzipFactsetFiles]
          simp only [hsel, Bool.not_true, Bool.false_eq_true, if_false, recordCreates, ho]
        refine ⟨[], ?_, List.nil_prefix, ?_⟩
        · rw [e1, e2, List.append_nil]
        · intro hok
          rw [e1] at hok
          simp at hok
    · simp only [Bool.not_eq_true] at hsel
      have hfilter : (factsetFile :: rest).filter (selects fName)
          = rest.filter (selects fName) := by
        simp [selects, hsel, List.filter_cons]
      rw [hfilter]
      have e1 : unzipFactsetFiles sys archive dest fName (factsetFile :: rest) acc s
          = unzipFactsetFiles sys archive dest fName rest acc s := by
        rw [unzipFactsetFiles]
        simp only [hsel, Bool.not_false, if_true]
      have e2 : unzipFactsetFiles (recordCreates sys) archive dest fName
            (factsetFile :: rest) acc (s, log)
          = unzipFactsetFiles (recordCreates sys) archive dest fName rest acc (s, log) := by
        rw [unzipFactsetFiles]
        simp only [hsel, Bool.not_false, if_true]
      rw [e1, e2]
      exact ih acc s log

theorem selectedPairs_cons_paths (archive dest fName : String)
    (rest factsetFiles : List String) :
    (selectedPairs (fName :: rest) factsetFiles).map (fun p => extractPath archive dest p.1) =
      (factsetFiles.filter (selects fName)).map (fun _ => extractPath archive dest fName) ++
        (selectedPairs rest factsetFiles).map (fun p => extractPath archive dest p.1) := by
  rw [selectedPairs_cons]
  simp [List.map_append, Function.comp_def]

/-- The outer loop of `unzip` in the system that records creations: it behaves as in
`sys`, and the paths it creates are, in order, those of the selected pairs, cut short
only by a failing operation. -/
theorem unzipMembers_recordCreates {σ : Type} (sys : LocalSystem σ)
    (archive dest : String) (factsetFiles : List String) (members : List String) :
    ∀ (acc : List String) (s : σ) (log : List String), ∃ created : List String,
      unzipMembers (recordCreates sys) archive dest factsetFiles members acc (s, log) =
        ((unzipMembers sys archive dest factsetFiles members acc s).1,
          ((unzipMembers sys archive dest factsetFiles members acc s).2, log ++ created)) ∧
      created <+: (selectedPairs members factsetFiles).map
        (fun p => extractPath archive dest p.1) ∧
      ((unzipMembers sys archive dest factsetFiles members acc s).1.2 = none →
        created = (selectedPairs members factsetFiles).map
          (fun p => extractPath archive dest p.1)) := by
  induction members with
  | nil =>
    intro acc s log
    exact ⟨[], by simp [unzipMembers], by simp, by simp [selectedPairs]⟩
  | cons fName rest ih =>
    intro acc s log
    obtain ⟨c1, hrun1, hpre1, hall1⟩ :=
      unzipFactsetFiles_recordCreates sys archive dest fName factsetFiles acc s log
    rw [selectedPairs_cons_paths]
    rcases hin : unzipFactsetFiles sys archive dest fName factsetFiles acc s
      with ⟨⟨acc2, _ | err⟩, t1⟩
    · rw [hin] at hrun1 hall1
      have hc1 := hall1 rfl
      obtain ⟨c2, hrun2, hpre2, hall2⟩ := ih acc2 t1 (log ++ c1)
      have e1 : unzipMembers sys archive dest factsetFiles (fName :: rest) acc s
          = unzipMembers sys archive dest factsetFiles rest acc2 t1 := by
        rw [unzipMembers, hin]
      have e2 : unzipMembers (recordCreates sys) archive dest factsetFiles (fName :: rest)
            acc (s, log)
          = unzipMembers (recordCreates sys) archive dest factsetFiles rest acc2
            (t1, log ++ c1) := by
        rw [unzipMembers, hrun1]
      refine ⟨c1 ++ c2, ?_, ?_, ?_⟩
      · rw [e1, e2, hrun2, List.append_assoc]
      · rw [hc1]
        exact (List.prefix_append_right_inj _).2 hpre2
      · intro hok
        rw [e1] at hok
        rw [hc1, hall2 hok]
    · rw [hin] at hrun1
      have e1 : unzipMembers sys archive dest factsetFiles (fName :: rest) acc s
          = (([], some err), t1) := by
        rw [unzipMembers, hin]
      have e2 : unzipMembers (recordCreates sys) archive dest factsetFiles (fName :: rest)
            acc (s, log)
          = (([], some err), (t1, log ++ c1)) := by
        rw [unzipMembers, hrun1]
      refine ⟨c1, ?_, ?_, ?_⟩
      · rw [e1, e2]
      · exact hpre1.trans (List.prefix_append _ _)
      · intro hok
        rw [e1] at hok
        simp at hok

/-- Running `unzip` in the system that records creations: same result and same state as
in `sys`, and the created paths are, in order, those of the selected pairs of the
archive's members, all of them when `unzip` succeeds and an initial part of them when an
operation fails. -/
theorem unzip_recordCreates {σ : Type} (sys : LocalSystem σ) (archive dest : String)
    (factsetFiles members : List String) (s s1 : σ) (log : List String)
    (hopen : sys.zipOpenReader (path.Join [dest, archive]) s = ((members, none), s1)) :
    ∃ created : List String,
      unzip (recordCreates sys) archive factsetFiles dest (s, log) =
        ((unzip sys archive factsetFiles dest s).1,
          ((unzip sys archive factsetFiles dest s).2, log ++ created)) ∧
      created <+: (selectedPairs members factsetFiles).map
        (fun p => extractPath archive dest p.1) ∧
      ((unzip sys archive factsetFiles dest s).1.2 = none →
        created = (selectedPairs members factsetFiles).map
          (fun p => extractPath archive dest p.1)) := by
  obtain ⟨created, hrun, hpre, hall⟩ :=
    unzipMembers_recordCreates sys archive dest factsetFiles members [] s1 log
  have e1 : unzip sys archive factsetFiles dest s =
      ((unzipMembers sys archive dest factsetFiles members [] s1).1,
        sys.zipClose (unzipMembers sys archive dest factsetFiles members [] s1).2) := by
    simp only [unzip, hopen]
  have hopen2 : (recordCreates sys).zipOpenReader (path.Join [dest, archive]) (s, log)
      = ((members, none), (s1, log)) := by
    simp only [recordCreates, hopen]
  have e2 : unzip (recordCreates sys) archive factsetFiles dest (s, log) =
      ((unzipMembers sys archive dest factsetFiles members [] s1).1,
        (sys.zipClose (unzipMembers sys archive dest factsetFiles members [] s1).2,
          log ++ created)) := by
    simp only [unzip, hopen2, hrun]
    rfl
  refine ⟨created, ?_, hpre, ?_⟩
  · rw [e1, e2]
  · intro hok
    rw [e1] at hok
    exact hall hok

/-! ## Extraction: the cadence directory -/

/-- C10 amended: for every archive name, destination root and requested names, in any
local system, the files `unzip` creates are, in order, `path.Join(dir, member)` for the
selected (matching) members, all of them when `unzip` succeeds and an initial part of
them when an operation fails; `dir` is the weekly sub-directory of the destination root
when the archive's name contains "full" and the daily one otherwise, whatever the member
and the requested names are.  Whenever the created path lies under `dir`, it is under the
weekly sub-directory exactly when the archive's name contains "full" and under the daily
one exactly when it does not.  The created path lies under `dir`, as the cleaned `dir`, a
slash and the cleaned member name, for every member name whose path elements never climb
above `dir` with `..` and leave at least one element; for a member name whose elements
are all proper names it is the cleaned `dir`, a slash and the member name itself. -/
theorem C10_member_path_follows_archive_cadence {σ : Type} (sys : LocalSystem σ)
    (archive dest : String) (factsetFiles members : List String) (s s1 : σ)
    (hopen : sys.zipOpenReader (path.Join [dest, archive]) s = ((members, none), s1)) :
    (∃ created : List String,
      unzip (recordCreates sys) archive factsetFiles dest (s, []) =
        ((unzip sys archive factsetFiles dest s).1,
          ((unzip sys archive factsetFiles dest s).2, created)) ∧
      created <+: (selectedPairs members factsetFiles).map
        (fun p => path.Join [cadenceDir archive dest, p.1]) ∧
      ((unzip sys archive factsetFiles dest s).1.2 = none →
        created = (selectedPairs members factsetFiles).map
          (fun p => path.Join [cadenceDir archive dest, p.1]))) ∧
    (strings.Contains archive "full" = true →
      cadenceDir archive dest = dest ++ "/" ++ weekly) ∧
    (strings.Contains archive "full" = false →
      cadenceDir archive dest = dest ++ "/" ++ daily) ∧
    (∀ fName : String,
      isUnder (cadenceDir archive dest) (path.Join [cadenceDir archive dest, fName]) = true →
      (isUnder (dest ++ "/" ++ weekly) (path.Join [cadenceDir archive dest, fName]) = true ↔
        strings.Contains archive "full" = true) ∧
      (isUnder (dest ++ "/" ++ daily) (path.Join [cadenceDir archive dest, fName]) = true ↔
        strings.Contains archive "full" = false)) ∧
    (∀ fName : String, staysInside fName = true →
      path.Join [cadenceDir archive dest, fName] =
        path.Clean (cadenceDir archive dest) ++ "/" ++ insideName fName ∧
      isUnder (cadenceDir archive dest) (path.Join [cadenceDir archive dest, fName]) = true ∧
      (isUnder (dest ++ "/" ++ weekly) (path.Join [cadenceDir archive dest, fName]) = true ↔
        strings.Contains archive "full" = true) ∧
      (isUnder (dest ++ "/" ++ daily) (path.Join [cadenceDir archive dest, fName]) = true ↔
        strings.Contains archive "full" = false)) ∧
    (∀ fName : String, PlainName fName →
      path.Join [cadenceDir archive dest, fName] =
        path.Clean (cadenceDir archive dest) ++ "/" ++ fName) := by
  have hdirW : strings.Contains archive "full" = true →
      cadenceDir archive dest = dest ++ "/" ++ weekly := by
    intro hfull
    simp only [cadenceDir, hfull, if_true]
  have hdirD : strings.Contains archive "full" = false →
      cadenceDir archive dest = dest ++ "/" ++ daily := by
    intro hfull
    simp only [cadenceDir, hfull, Bool.false_eq_true, if_false]
  have hiff : ∀ p : String, isUnder (cadenceDir archive dest) p = true →
      (isUnder (dest ++ "/" ++ weekly) p = true ↔ strings.Contains archive "full" = true) ∧
      (isUnder (dest ++ "/" ++ daily) p = true ↔ strings.Contains archive "full" = false) := by
    intro p hunder
    cases hfull : strings.Contains archive "full"
    · rw [hdirD hfull] at hunder
      refine ⟨?_, ?_⟩
      · constructor
        · intro hw
          exact absurd hunder (fun hd => isUnder_weekly_daily dest p hw hd)
        · intro hne
          exact absurd hne (by simp)
      · exact ⟨fun _ => rfl, fun _ => hunder⟩
    · rw [hdirW hfull] at hunder
      refine ⟨?_, ?_⟩
      · exact ⟨fun _ => rfl, fun _ => hunder⟩
      · constructor
        · intro hd
          exact absurd hd (fun hd2 => isUnder_weekly_daily dest p hunder hd2)
        · intro hne
          exact absurd hne (by simp)
  refine ⟨?_, hdirW, hdirD, ?_, ?_, ?_⟩
  · obtain ⟨created, hrun, hpre, hall⟩ :=
      unzip_recordCreates sys archive dest factsetFiles members s s1 [] hopen
    exact ⟨created, by simpa using hrun, hpre, hall⟩
  · intro fName hunder
    exact hiff _ hunder
  · intro fName hin
    have hpath : path.Join [cadenceDir archive dest, fName] =
        path.Clean (cadenceDir archive dest) ++ "/" ++ insideName fName :=
      extractPath_inside archive dest fName hin
    have hunder := isUnder_of_eq (cadenceDir archive dest) _ (insideName fName) hpath
    exact ⟨hpath, hunder, hiff _ hunder⟩
  · intro fName hplain
    have hep : path.Join [cadenceDir archive dest, fName] = _ :=
      extractPath_plain archive dest fName hplain
    rw [hep]
    cases hfull : strings.Contains archive "full"
    · rw [hdirD hfull, path_Clean_dir dest daily (by decide) (by decide)]
      apply String.ext
      simp
    · rw [hdirW hfull, path_Clean_dir dest weekly (by decide) (by decide)]
      apply String.ext
      simp

/-- C10 amended, at the scenario of the specification: `unzip` on the archive
`prices_full_v2_3.zip` with member `prices_2021.txt` and requested name `prices_2021.txt`
creates `out/weekly/prices_2021.txt` and returns `prices_2021.txt`; the created path is
under the weekly sub-directory.  The names `./a.txt`, `sub//a.txt` and `a/` stay inside
the directory too. -/
theorem C10_member_path_follows_archive_cadence_witness :
    unzip (recordCreates (exampleSystem ["prices_2021.txt"])) "prices_full_v2_3.zip"
        ["prices_2021.txt"] "out" ((), [])
      = ((["prices_2021.txt"], none), ((), ["out/weekly/prices_2021.txt"])) ∧
    (staysInside "prices_2021.txt" = true ∧ staysInside "./a.txt" = true ∧
      staysInside "sub//a.txt" = true ∧ staysInside "a/" = true ∧
      staysInside "../daily/prices_2021.txt" = false) ∧
    (∃ created : List String,
      unzip (recordCreates (exampleSystem ["prices_2021.txt"])) "prices_full_v2_3.zip"
          ["prices_2021.txt"] "out" ((), []) =
        ((unzip (exampleSystem ["prices_2021.txt"]) "prices_full_v2_3.zip"
            ["prices_2021.txt"] "out" ()).1,
          ((unzip (exampleSystem ["prices_2021.txt"]) "prices_full_v2_3.zip"
            ["prices_2021.txt"] "out" ()).2, created)) ∧
      created <+: (selectedPairs ["prices_2021.txt"] ["prices_2021.txt"]).map
        (fun p => path.Join [cadenceDir "prices_full_v2_3.zip" "out", p.1]) ∧
      ((unzip (exampleSystem ["prices_2021.txt"]) "prices_full_v2_3.zip"
          ["prices_2021.txt"] "out" ()).1.2 = none →
        created = (selectedPairs ["prices_2021.txt"] ["prices_2021.txt"]).map
          (fun p => path.Join [cadenceDir "prices_full_v2_3.zip" "out", p.1]))) ∧
    (path.Join [cadenceDir "prices_full_v2_3.zip" "out", "prices_2021.txt"] =
        path.Clean (cadenceDir "prices_full_v2_3.zip" "out") ++ "/" ++
          insideName "prices_2021.txt" ∧
      isUnder (cadenceDir "prices_full_v2_3.zip" "out")
        (path.Join [cadenceDir "prices_full_v2_3.zip" "out", "prices_2021.txt"]) = true ∧
      (isUnder ("out" ++ "/" ++ weekly)
          (path.Join [cadenceDir "prices_full_v2_3.zip" "out", "prices_2021.txt"]) = true ↔
        strings.Contains "prices_full_v2_3.zip" "full" = true) ∧
      (isUnder ("out" ++ "/" ++ daily)
          (path.Join [cadenceDir "prices_full_v2_3.zip" "out", "prices_2021.txt"]) = true ↔
        strings.Contains "prices_full_v2_3.zip" "full" = false)) :=
  ⟨by decide, by decide,
    (C10_member_path_follows_archive_cadence (exampleSystem ["prices_2021.txt"])
      "prices_full_v2_3.zip" "out" ["prices_2021.txt"] ["prices_2021.txt"] () () rfl).1,
    (C10_member_path_follows_archive_cadence (exampleSystem ["prices_2021.txt"])
      "prices_full_v2_3.zip" "out" ["prices_2021.txt"] ["prices_2021.txt"] () () rfl).2.2.2.2.1
      "prices_2021.txt" (by decide)⟩

end FactsetReader
